import Mathlib

/-!
Verification of the repo-to-text extraction tool (src/main.rs).

The program text is modelled shallowly: Rust strings become lists of
characters, `HashSet`s become duplicate-free lists with insert/remove,
the filesystem becomes an inductive tree, and the three `Regex`
substitution passes of the redactor are implemented as executable
scanners with exactly the leftmost, non-greedy/greedy semantics of the
source patterns.  All definitions are translated from src/main.rs.
-/

set_option maxHeartbeats 1000000
set_option maxRecDepth 100000

namespace RepoToText

/-- Text (a Rust `String` after lossy UTF-8 decoding) as a list of characters. -/
abbrev Str := List Char

/-- Rust `char::to_lowercase` restricted to the ASCII range, applied pointwise
as `str::to_lowercase` does. -/
def lowerStr (s : Str) : Str := s.map Char.toLower

/-- Rust `str::trim_start_matches('.')`: remove every leading dot. -/
def trimStartDots (s : Str) : Str := s.dropWhile (fun c => c == '.')

/-- Rust `str::trim`: strip whitespace from both ends. -/
def rustTrim (s : Str) : Str :=
  ((s.dropWhile Char.isWhitespace).reverse.dropWhile Char.isWhitespace).reverse

/-- Boolean test that `l` is a prefix of `s` (Rust `str::starts_with`). -/
def isPfxOf : Str → Str → Bool
  | [], _ => true
  | _, [] => false
  | a :: l, b :: s => a == b && isPfxOf l s

/-- Rust `str::contains(needle)`: substring occurrence test. -/
def containsSub (needle : Str) : Str → Bool
  | [] => isPfxOf needle []
  | c :: t => isPfxOf needle (c :: t) || containsSub needle t

/-- Strip the prefix `l` from `s`, returning the remainder on success. -/
def stripPfx : Str → Str → Option Str
  | [], s => some s
  | _ :: _, [] => none
  | a :: l, b :: s => if a == b then stripPfx l s else none

/-- Rust `str::ends_with`. -/
def endsWith (sfx s : Str) : Bool := isPfxOf sfx.reverse s.reverse

/-- The characters of a filename after its last dot, if any dot occurs
(mirrors the suffix computation inside Rust `Path::extension`). -/
def afterLastDot : Str → Option Str
  | [] => none
  | c :: t =>
    match afterLastDot t with
    | some r => some r
    | none => if c == '.' then some t else none

/-- Rust `Path::extension` on a file name: `none` when the name is `..`, has
no dot, or its only dot is the leading character; otherwise the portion after
the final dot. -/
def rustExtension (f : Str) : Option Str :=
  if f == ['.', '.'] then none
  else
    match f with
    | [] => none
    | c :: t => if c == '.' && !(t.contains '.') then none else afterLastDot (c :: t)

/-- `HashSet::insert` on a list model: append if absent. -/
def hsInsert (x : Str) (l : List Str) : List Str := if l.contains x then l else l ++ [x]

/-- `HashSet::remove` on a list model: drop every copy. -/
def hsRemove (x : Str) (l : List Str) : List Str := l.filter (fun y => y != x)

/-- `DEFAULT_ALLOWED_EXTS` from src/main.rs. -/
def DEFAULT_ALLOWED_EXTS : List Str :=
  ["ada", "adb", "ads", "apex", "as", "asm", "astro", "bas", "bat", "c", "cc",
   "cbl", "cl", "clj", "cljc", "cljs", "cls", "cmake", "coffee", "cr", "cs",
   "cshtml", "csh", "css", "cue", "cxx", "d", "dart", "edn", "elm", "erl",
   "ex", "exs", "fs", "fsi", "fsx", "fsscript", "f", "f03", "f08", "f77",
   "f90", "f95", "gd", "gemspec", "gleam", "glsl", "go", "gradle", "graphql",
   "gql", "groovy", "gvy", "h", "handlebars", "hbs", "hh", "hpp", "hs", "hx",
   "hxx", "htm", "html", "hrl", "hcl", "ipynb", "java", "jl", "js", "jsx",
   "json", "kql", "kt", "kts", "less", "liquid", "lua", "m", "mm", "ml",
   "mli", "mjs", "move", "nim", "nix", "odin", "php", "phtml", "pl", "pm",
   "proto", "ps1", "psm1", "pug", "purs", "py", "pyi", "pyx", "q", "r", "rb",
   "rego", "rs", "s", "sass", "scala", "sbt", "scm", "scss", "sh", "slim",
   "sol", "sql", "styl", "svelte", "swift", "tcl", "tf", "tfvars", "thrift",
   "ts", "tsx", "twig", "v", "vb", "vba", "vbs", "vh", "vue", "wgsl", "xml",
   "zig", "zsh"].map String.toList

/-- `DEFAULT_IGNORED_DIRS` from src/main.rs. -/
def DEFAULT_IGNORED_DIRS : List Str :=
  ["__pycache__", "__snapshots__", "_build", "_output", "angular", "bazel-bin",
   "bazel-out", "bazel-testlogs", "bin", "bower_components", "build",
   "buck-out", "cache", "cmake-build-debug", "cmake-build-release", "coverage",
   "dart_tool", "debug", "deriveddata", "dist", "env", "git", "gradle", "hg",
   "jspm_packages", "logs", "m2", "mypy_cache", "next", "node_modules", "nuxt",
   "obj", "out", "output", "parcel-cache", "pnpm-store", "pods", "pytest_cache",
   "release", "reports", "ruff_cache", "serverless", "storybook-static",
   "svelte-kit", "svn", "target", "temp", "terraform", "tmp", "vendor", "venv",
   "vercel", "vs", "vscode", "yarn", "yarn_cache"].map String.toList

/-- The filtering state of `RepoProcessor`: the two configured sets. -/
structure RepoProcessor where
  ignored_dirs : List Str
  allowed_exts : List Str

/-- The per-item update performed by the `additional_ignores` loop of
`RepoProcessor::new`: trim, skip empties, strip leading dots, lower-case,
then insert the name into the ignored-directory set and remove it from the
allowed-extension set. -/
def applyIgnoreItem (st : List Str × List Str) (item : Str) : List Str × List Str :=
  let cleaned := rustTrim item
  if cleaned.isEmpty then st
  else
    let dir_name := lowerStr (trimStartDots cleaned)
    if dir_name.isEmpty then st
    else (hsInsert dir_name st.1, hsRemove dir_name st.2)

/-- The per-item update performed by the `include_exts` loop of
`RepoProcessor::new`: trim, skip empties, strip leading dots, lower-case,
then insert into the allowed-extension set. -/
def applyIncludeItem (exts : List Str) (item : Str) : List Str :=
  let cleaned := rustTrim item
  if cleaned.isEmpty then exts
  else
    let ext := lowerStr (trimStartDots cleaned)
    if ext.isEmpty then exts
    else hsInsert ext exts

/-- `RepoProcessor::new`: build the default sets, apply `--ignore` items,
then apply `--include` items. -/
def RepoProcessor.new (additional_ignores : Option (List Str))
    (include_exts : Option (List Str)) : RepoProcessor :=
  let d0 := DEFAULT_IGNORED_DIRS.foldl
    (fun acc d => hsInsert (lowerStr (trimStartDots d)) acc) []
  let e0 := DEFAULT_ALLOWED_EXTS.foldl
    (fun acc x => hsInsert (lowerStr (trimStartDots x)) acc) []
  let st :=
    match additional_ignores with
    | none => (d0, e0)
    | some items => items.foldl applyIgnoreItem (d0, e0)
  let ex :=
    match include_exts with
    | none => st.2
    | some items => items.foldl applyIncludeItem st.2
  ⟨st.1, ex⟩

/-- The default processor (no `--ignore`, no `--include`). -/
def defaultProcessor : RepoProcessor := RepoProcessor.new none none

/-- `RepoProcessor::should_ignore_dir`: lower-case the directory name, strip
every leading dot, and test membership in the ignored-directory set. -/
def should_ignore_dir (p : RepoProcessor) (dir : Str) : Bool :=
  p.ignored_dirs.contains (trimStartDots (lowerStr dir))

/-- The `.so.` needle of the shared-library check. -/
def soDot : Str := ".so.".toList

/-- `RepoProcessor::should_ignore_ext`, taking the `Path::file_name` component
(`none` models a path with no file-name component; the code then uses the
empty string). -/
def should_ignore_ext (p : RepoProcessor) (fileName : Option Str) : Bool :=
  let filename := fileName.getD []
  if !(filename.contains '.') || filename.getLast? == some '.' then true
  else if containsSub soDot (lowerStr filename) then true
  else
    match rustExtension filename with
    | none => true
    | some ext =>
      let extension := lowerStr ext
      if extension.isEmpty then true
      else !(p.allowed_exts.contains extension)

/-- A filesystem tree: regular files carry a size in bytes, directories carry
their children. -/
inductive FsEntry where
  | file (name : Str) (size : Nat) : FsEntry
  | dir (name : Str) (children : List FsEntry) : FsEntry

mutual

/-- The walk of `RepoProcessor::collect_files` below one entry: the
`filter_entry` closure prunes a directory (and its whole subtree) when
`should_ignore_dir` accepts its base name; a file survives when its name does
not start with `._` and `should_ignore_ext` rejects it.  Emitted files are
returned as component paths relative to the walk root. -/
def walkEntry (p : RepoProcessor) : FsEntry → List (List Str)
  | .file n _ =>
    if isPfxOf ['.', '_'] n || should_ignore_ext p (some n) then [] else [[n]]
  | .dir n cs =>
    if should_ignore_dir p n then []
    else (walkChildren p cs).map (fun q => n :: q)

/-- The walk over a list of sibling entries. -/
def walkChildren (p : RepoProcessor) : List FsEntry → List (List Str)
  | [] => []
  | e :: es => walkEntry p e ++ walkChildren p es

end

/-- `RepoProcessor::collect_files` started at the root `.` (whose own name is
never filtered, since `Path::new(".").file_name()` is `None`). -/
def collect_files (p : RepoProcessor) (root : List FsEntry) : List (List Str) :=
  walkChildren p root

/-- The accepted paths of the large-file prompt: the oversized entries whose
selection flag is still true when Enter is pressed. -/
def selectedPathsOf (large : List (Str × Nat)) (sel : List Bool) : List Str :=
  ((large.zip sel).filter (fun x => x.2)).map (fun x => x.1.1)

/-- `RepoProcessor::prompt_large_files`: given the collected candidate list,
the oversized list and the final per-entry selection vector produced by the
interactive loop, return the filtered file list. -/
def prompt_large_files (files : List Str) (large : List (Str × Nat))
    (sel : List Bool) : List Str :=
  if large.isEmpty then files
  else
    let selected := selectedPathsOf large sel
    files.filter (fun f =>
      if large.any (fun lf => lf.1 == f) then selected.contains f else true)

/-- The fixed placeholder inserted by every redaction rule. -/
def ph : Str := "<binary data removed>".toList

/-- Three double quotes, the delimiter of the first pattern. -/
def q3 : Str := ['"', '"', '"']

/-- The literal prefix of pattern 1, `DATA = b"""`. -/
def lit1 : Str := "DATA = b".toList ++ q3

/-- The literal prefix of pattern 2, `b85decode(`. -/
def lit2 : Str := "b85decode(".toList

/-- The literal prefix of pattern 3, `base64.`. -/
def lit3 : Str := "base64.".toList

/-- The `decode` infix required by pattern 3. -/
def dec6 : Str := "decode".toList

/-- The quoted placeholder inserted by patterns 2 and 3. -/
def phq : Str := '"' :: (ph ++ ['"'])

/-- The replacement text of pattern 1. -/
def R1 : Str := lit1 ++ ph ++ q3

/-- The replacement text of pattern 2. -/
def R2 : Str := lit2 ++ phq ++ [')']

/-- The replacement text of pattern 3 for captured group `A`. -/
def R3 (A : Str) : Str := lit3 ++ A ++ '(' :: (phq ++ [')'])

/-- The lazy tail of pattern 1: `[^"]*?(""")` — consume non-quote characters,
stopping at the first position where `"""` matches; fail on any other quote. -/
def scan1 : Str → Option (Str × Str)
  | [] => none
  | c :: t =>
    match stripPfx q3 (c :: t) with
    | some u => some ([], u)
    | none =>
      if c == '"' then none
      else (scan1 t).map (fun pr => (c :: pr.1, pr.2))

/-- The lazy tail of patterns 2 and 3 (`.*?` up to the first `stop`), and the
greedy `[^(]*` split of pattern 3 (first occurrence of `stop`). -/
def scanTo (stop : Char) : Str → Option (Str × Str)
  | [] => none
  | c :: t =>
    if c == stop then some ([], t)
    else (scanTo stop t).map (fun pr => (c :: pr.1, pr.2))

/-- Leftmost match of pattern 1, `(?s)(DATA = b""")[^"]*?(""")`: returns
(text before the match, lazy group, text after the match). -/
def find1 : Str → Option (Str × Str × Str)
  | [] => none
  | c :: t =>
    match stripPfx lit1 (c :: t) with
    | some r =>
      match scan1 r with
      | some gu => some ([], gu.1, gu.2)
      | none => (find1 t).map (fun x => (c :: x.1, x.2.1, x.2.2))
    | none => (find1 t).map (fun x => (c :: x.1, x.2.1, x.2.2))

/-- Leftmost match of pattern 2, `(?s)(b85decode\().*?(\))`: returns
(text before the match, lazy group, text after the match). -/
def find2 : Str → Option (Str × Str × Str)
  | [] => none
  | c :: t =>
    match stripPfx lit2 (c :: t) with
    | some r =>
      match scanTo ')' r with
      | some cu => some ([], cu.1, cu.2)
      | none => (find2 t).map (fun x => (c :: x.1, x.2.1, x.2.2))
    | none => (find2 t).map (fun x => (c :: x.1, x.2.1, x.2.2))

/-- Leftmost match of pattern 3, `(?s)(base64\.[^(]*decode\().*?(\))`: returns
(text before the match, the `[^(]*` group without its trailing `decode`, the
lazy group, text after the match).  The greedy `[^(]*` forces the `decode(` to
sit at the first parenthesis after `base64.`. -/
def find3 : Str → Option (Str × Str × Str × Str)
  | [] => none
  | c :: t =>
    match stripPfx lit3 (c :: t) with
    | some r =>
      match scanTo '(' r with
      | some ab =>
        if endsWith dec6 ab.1 then
          match scanTo ')' ab.2 with
          | some cu => some ([], ab.1, cu.1, cu.2)
          | none => (find3 t).map (fun x => (c :: x.1, x.2.1, x.2.2.1, x.2.2.2))
        else (find3 t).map (fun x => (c :: x.1, x.2.1, x.2.2.1, x.2.2.2))
      | none => (find3 t).map (fun x => (c :: x.1, x.2.1, x.2.2.1, x.2.2.2))
    | none => (find3 t).map (fun x => (c :: x.1, x.2.1, x.2.2.1, x.2.2.2))

/-- `Regex::replace_all` for pattern 1, driven by a fuel counter that the
wrapper `pat1` instantiates with the text length (each match consumes at
least one character, so the fuel never runs out). -/
def pat1Go : Nat → Str → Str
  | 0, s => s
  | f + 1, s =>
    match find1 s with
    | none => s
    | some x => x.1 ++ R1 ++ pat1Go f x.2.2

/-- `replace_all` of pattern 1 with replacement `$1<binary data removed>$2`. -/
def pat1 (s : Str) : Str := pat1Go s.length s

/-- `Regex::replace_all` for pattern 2 (fuel-driven). -/
def pat2Go : Nat → Str → Str
  | 0, s => s
  | f + 1, s =>
    match find2 s with
    | none => s
    | some x => x.1 ++ R2 ++ pat2Go f x.2.2

/-- `replace_all` of pattern 2 with replacement `$1"<binary data removed>"$2`. -/
def pat2 (s : Str) : Str := pat2Go s.length s

/-- `Regex::replace_all` for pattern 3 (fuel-driven). -/
def pat3Go : Nat → Str → Str
  | 0, s => s
  | f + 1, s =>
    match find3 s with
    | none => s
    | some x => x.1 ++ R3 x.2.1 ++ pat3Go f x.2.2.2

/-- `replace_all` of pattern 3 with replacement `$1"<binary data removed>"$2`. -/
def pat3 (s : Str) : Str := pat3Go s.length s

/-- The redaction pass of `RepoProcessor::process_file`: the three
substitutions applied in their source order. -/
def redact (s : Str) : Str := pat3 (pat2 (pat1 s))

/-- The 47-character `=` banner written around each block. -/
def banner47 : Str := List.replicate 47 '='

/-- The 49-character `=` banner of the run header. -/
def banner49 : Str := List.replicate 49 '='

/-- The newline appended by `writeln!`. -/
def nlc : Char := '\n'

/-- The block written by `RepoProcessor::process_file` for one file: banner,
`--- File: path ---`, banner, blank line, redacted content, newline,
`--- End of File ---`, blank line, banner. -/
def process_file_block (path content : Str) : Str :=
  banner47 ++ [nlc] ++
  "--- File: ".toList ++ path ++ " ---".toList ++ [nlc] ++
  banner47 ++ [nlc] ++ [nlc] ++
  redact content ++ [nlc] ++
  "--- End of File ---".toList ++ [nlc] ++ [nlc] ++
  banner47 ++ [nlc]

/-- The run header of `process_repository` (a timestamp rendered by `{:?}`
stands in for `SystemTime::now()`). -/
def header_lines (ts : Str) : Str :=
  "Repository Content Extraction".toList ++ [nlc] ++
  "Generated on: ".toList ++ ts ++ [nlc] ++
  banner49 ++ [nlc] ++ [nlc]

/-- Overwrite the bytes of file `f` starting at `pos` with `data`
(positional file write through an independent handle). -/
def fileWrite (f : Str) (pos : Nat) (data : Str) : Str :=
  f.take pos ++ data ++ f.drop (pos + data.length)

/-- Concatenation of the blocks appended under the output mutex. -/
def joinBlocks (blocks : List Str) : Str := blocks.foldr (fun b acc => b ++ acc) []

/-- The bytes of `repo_content.txt` after `process_repository` returns: the
first `File::create` opens a buffered handle and the header stays in its
buffer; the second `File::create` truncates the file again; the worker pool
then writes every block through the second handle; finally the writers flush
in reverse declaration order, so the header bytes land at offset 0 of the
first handle last, on top of the already-written blocks. -/
def process_repository_bytes (ts : Str) (blocks : List Str) : Str :=
  fileWrite (fileWrite [] 0 (joinBlocks blocks)) 0 (header_lines ts)

/-- The intended output layout described by the specification: the run header
followed by the blocks. -/
def spec_output_bytes (ts : Str) (blocks : List Str) : Str :=
  header_lines ts ++ joinBlocks blocks

/-- Redaction invariant for pattern 1: every occurrence of the literal
`DATA = b"""` in the text either has no completing lazy match, or its lazy
group is exactly the placeholder. -/
def P1 (s : Str) : Prop :=
  ∀ p r, s = p ++ lit1 ++ r → ∀ g u, scan1 r = some (g, u) → g = ph

/-- Redaction invariant for pattern 2: every occurrence of `b85decode(`
either has no closing parenthesis after it, or its lazy group is exactly the
quoted placeholder. -/
def P2 (s : Str) : Prop :=
  ∀ p r, s = p ++ lit2 ++ r → ∀ C u, scanTo ')' r = some (C, u) → C = phq

/-- Redaction invariant for pattern 3: every occurrence of `base64.` whose
greedy group reaches a `decode(` either has no closing parenthesis after it,
or its lazy group is exactly the quoted placeholder. -/
def P3 (s : Str) : Prop :=
  ∀ p r, s = p ++ lit3 ++ r → ∀ A B, scanTo '(' r = some (A, B) →
    endsWith dec6 A = true → ∀ C u, scanTo ')' B = some (C, u) → C = phq

/-- The fail-fast aggregation skeleton of `process_repository`:
`try_for_each` over the final file list, where `extract` stands for the body
(`process_file` plus the temp-file round trip).  The first error aborts the
fold; otherwise every block is produced. -/
def runExtraction {α ε β : Type} (extract : α → Except ε β) : List α → Except ε (List β)
  | [] => .ok []
  | f :: fs =>
    match extract f with
    | .error e => .error e
    | .ok b => (runExtraction extract fs).map (fun bs => b :: bs)

/-! ### Specifications of the low-level scanners -/

theorem stripPfx_some {l s r : Str} (h : stripPfx l s = some r) : s = l ++ r := by
  induction l generalizing s with
  | nil =>
    simp only [stripPfx, Option.some.injEq] at h
    simp [h]
  | cons a l ih =>
    cases s with
    | nil => simp [stripPfx] at h
    | cons b s =>
      simp only [stripPfx] at h
      split at h
      · rename_i hab
        have hb := eq_of_beq hab
        simp [← hb, ih h]
      · exact absurd h (by simp)

theorem stripPfx_append (l r : Str) : stripPfx l (l ++ r) = some r := by
  induction l with
  | nil => rfl
  | cons a l ih => simpa [stripPfx] using ih

theorem isPfxOf_iff {b w : Str} : isPfxOf b w = true ↔ ∃ z, w = b ++ z := by
  induction b generalizing w with
  | nil => simp [isPfxOf]
  | cons a l ih =>
    cases w with
    | nil => simp [isPfxOf]
    | cons c t =>
      simp only [isPfxOf, Bool.and_eq_true, beq_iff_eq, ih, List.cons_append,
        List.cons.injEq]
      constructor
      · rintro ⟨rfl, z, rfl⟩; exact ⟨z, rfl, rfl⟩
      · rintro ⟨z, rfl, rfl⟩; exact ⟨rfl, z, rfl⟩

theorem endsWith_iff {a s : Str} : endsWith a s = true ↔ ∃ z, s = z ++ a := by
  unfold endsWith
  rw [isPfxOf_iff]
  constructor
  · rintro ⟨z, hz⟩
    refine ⟨z.reverse, ?_⟩
    have := congrArg List.reverse hz
    simpa using this
  · rintro ⟨z, rfl⟩
    exact ⟨z.reverse, by simp⟩

theorem containsSub_iff {n s : Str} : containsSub n s = true ↔ ∃ a b, s = a ++ n ++ b := by
  induction s with
  | nil =>
    simp only [containsSub, isPfxOf_iff]
    constructor
    · rintro ⟨z, hz⟩
      exact ⟨[], z, by simpa using hz⟩
    · rintro ⟨a, b, hab⟩
      have ha : a = [] := by
        cases a with
        | nil => rfl
        | cons x xs => simp at hab
      subst ha
      exact ⟨b, by simpa using hab⟩
  | cons c t ih =>
    simp only [containsSub, Bool.or_eq_true, isPfxOf_iff, ih]
    constructor
    · rintro (⟨z, hz⟩ | ⟨a, b, hab⟩)
      · exact ⟨[], z, by simpa using hz⟩
      · exact ⟨c :: a, b, by simp [hab]⟩
    · rintro ⟨a, b, hab⟩
      cases a with
      | nil => exact Or.inl ⟨b, by simpa using hab⟩
      | cons x xs =>
        simp only [List.cons_append, List.cons.injEq] at hab
        exact Or.inr ⟨xs, b, hab.2⟩

theorem scanTo_some {stop : Char} {s C u : Str} (h : scanTo stop s = some (C, u)) :
    s = C ++ stop :: u ∧ stop ∉ C := by
  induction s generalizing C u with
  | nil => simp [scanTo] at h
  | cons c t ih =>
    simp only [scanTo] at h
    split at h
    · rename_i hc
      have hcs := eq_of_beq hc
      simp only [Option.some.injEq, Prod.mk.injEq] at h
      obtain ⟨h1, h2⟩ := h
      subst h1; subst h2; subst hcs
      simp
    · rename_i hc
      rw [Option.map_eq_some'] at h
      obtain ⟨pr, hpr, heq⟩ := h
      obtain ⟨h1, h2⟩ := ih (C := pr.1) (u := pr.2) (by simpa using hpr)
      simp only [Prod.mk.injEq] at heq
      obtain ⟨he1, he2⟩ := heq
      subst he1; subst he2
      refine ⟨by simp [h1], ?_⟩
      simp only [List.mem_cons, not_or]
      exact ⟨fun hs => by simp [hs.symm] at hc, h2⟩

theorem scanTo_of {stop : Char} {C u : Str} (h : stop ∉ C) :
    scanTo stop (C ++ stop :: u) = some (C, u) := by
  induction C with
  | nil => simp [scanTo]
  | cons c t ih =>
    simp only [List.mem_cons, not_or] at h
    have h1 : (c == stop) = false := by
      simp only [beq_eq_false_iff_ne, ne_eq]
      exact fun hc => h.1 hc.symm
    simp [scanTo, h1, ih h.2]

theorem scanTo_none_iff {stop : Char} {s : Str} : scanTo stop s = none ↔ stop ∉ s := by
  induction s with
  | nil => simp [scanTo]
  | cons c t ih =>
    simp only [scanTo, List.mem_cons]
    split
    · rename_i hc
      simp [eq_of_beq hc]
    · rename_i hc
      simp only [Option.map_eq_none', ih, not_or]
      constructor
      · intro ht
        exact ⟨fun hs => by simp [hs.symm] at hc, ht⟩
      · intro hh
        exact hh.2

theorem scan1_some {s g u : Str} (h : scan1 s = some (g, u)) :
    s = g ++ q3 ++ u ∧ '"' ∉ g := by
  induction s generalizing g u with
  | nil => simp [scan1] at h
  | cons c t ih =>
    rw [scan1] at h
    split at h
    · rename_i u1 hsp
      simp only [Option.some.injEq, Prod.mk.injEq] at h
      obtain ⟨h1, h2⟩ := h
      subst h1; subst h2
      have := stripPfx_some hsp
      simp [this]
    · rename_i hsp
      split at h
      · exact absurd h (by simp)
      · rename_i hc
        rw [Option.map_eq_some'] at h
        obtain ⟨pr, hpr, heq⟩ := h
        obtain ⟨h1, h2⟩ := ih (g := pr.1) (u := pr.2) (by simpa using hpr)
        simp only [Prod.mk.injEq] at heq
        obtain ⟨he1, he2⟩ := heq
        subst he1; subst he2
        refine ⟨by simp [h1], ?_⟩
        simp only [List.mem_cons, not_or]
        exact ⟨fun hs => by simp [hs.symm] at hc, h2⟩

theorem scan1_of {g u : Str} (h : '"' ∉ g) : scan1 (g ++ q3 ++ u) = some (g, u) := by
  induction g with
  | nil =>
    have hq : ([] : Str) ++ q3 ++ u = '"' :: ('"' :: '"' :: u) := rfl
    rw [hq, scan1]
    have hs : stripPfx q3 ('"' :: '"' :: '"' :: u) = some u := stripPfx_append q3 u
    rw [hs]
  | cons c t ih =>
    simp only [List.mem_cons, not_or] at h
    have hq : (c :: t) ++ q3 ++ u = c :: (t ++ q3 ++ u) := by simp
    rw [hq, scan1]
    cases hsp : stripPfx q3 (c :: (t ++ q3 ++ u)) with
    | some u1 =>
      have hss := stripPfx_some hsp
      have hc : c = '"' := by
        have hx : c :: (t ++ q3 ++ u) = '"' :: ('"' :: '"' :: u1) := hss
        exact (List.cons.injEq _ _ _ _ ▸ hx).1
      exact absurd hc (fun hcc => h.1 hcc.symm)
    | none =>
      have hc : (c == '"') = false := by
        simp only [beq_eq_false_iff_ne, ne_eq]
        exact fun hcc => h.1 hcc.symm
      rw [hc]
      simp only [Bool.false_eq_true, if_false, ih h.2, Option.map_some']

theorem scan1_stab {w g y : Str} (i j : Str) (hn : scan1 (w ++ g ++ q3 ++ y) = none)
    (hg : '"' ∉ g) (hg2 : '"' ∉ i) (hne : i ≠ []) :
    scan1 (w ++ i ++ q3 ++ j) = none := by
  induction w with
  | nil =>
    rw [List.nil_append, scan1_of hg] at hn
    exact absurd hn (by simp)
  | cons c w2 ih =>
    have hsrc : scan1 (c :: (w2 ++ (g ++ (q3 ++ y)))) = none := by
      simpa [List.append_assoc] using hn
    have hih : scan1 (w2 ++ (g ++ (q3 ++ y))) = none →
        scan1 (w2 ++ (i ++ (q3 ++ j))) = none := by
      intro hx
      have hq := ih (by simpa [List.append_assoc] using hx)
      simpa [List.append_assoc] using hq
    have hgoal : scan1 (c :: (w2 ++ (i ++ (q3 ++ j)))) = none := by
      cases hsps : stripPfx q3 (c :: (w2 ++ (g ++ (q3 ++ y)))) with
      | some u0 => simp [scan1, hsps] at hsrc
      | none =>
        cases hspt : stripPfx q3 (c :: (w2 ++ (i ++ (q3 ++ j)))) with
        | some u1 =>
          exfalso
          have hx : c :: (w2 ++ (i ++ (q3 ++ j))) = '"' :: ('"' :: '"' :: u1) :=
            stripPfx_some hspt
          have hc1 : c = '"' := (List.cons.injEq _ _ _ _ ▸ hx).1
          have hc2 : w2 ++ (i ++ (q3 ++ j)) = '"' :: '"' :: u1 :=
            (List.cons.injEq _ _ _ _ ▸ hx).2
          cases w2 with
          | nil =>
            cases hi : i with
            | nil => exact hne hi
            | cons gc gt =>
              rw [hi] at hc2
              have hx3 : gc :: (gt ++ (q3 ++ j)) = '"' :: ('"' :: u1) := by
                simpa using hc2
              have : gc = '"' := (List.cons.injEq _ _ _ _ ▸ hx3).1
              exact hg2 (by simp [hi, this])
          | cons d w3 =>
            have hx3 : d :: (w3 ++ (i ++ (q3 ++ j))) = '"' :: ('"' :: u1) := by
              simpa using hc2
            have hd1 : d = '"' := (List.cons.injEq _ _ _ _ ▸ hx3).1
            have hd2 : w3 ++ (i ++ (q3 ++ j)) = '"' :: u1 :=
              (List.cons.injEq _ _ _ _ ▸ hx3).2
            cases w3 with
            | nil =>
              cases hi : i with
              | nil => exact hne hi
              | cons gc gt =>
                rw [hi] at hd2
                have hx4 : gc :: (gt ++ (q3 ++ j)) = '"' :: u1 := by simpa using hd2
                have : gc = '"' := (List.cons.injEq _ _ _ _ ▸ hx4).1
                exact hg2 (by simp [hi, this])
            | cons e2 w4 =>
              have hx4 : e2 :: (w4 ++ (i ++ (q3 ++ j))) = '"' :: u1 := by
                simpa using hd2
              have he1 : e2 = '"' := (List.cons.injEq _ _ _ _ ▸ hx4).1
              subst hc1; subst hd1; subst he1
              have harg : ('"' : Char) :: ((('"' : Char) :: ('"' : Char) :: w4) ++ (g ++ (q3 ++ y))) =
                  q3 ++ (w4 ++ (g ++ (q3 ++ y))) := by simp [q3]
              rw [harg, stripPfx_append] at hsps
              exact absurd hsps (by simp)
        | none =>
          by_cases hc : c = '"'
          · subst hc
            rw [scan1, hspt]
            rfl
          · have hcb : (c == '"') = false := by simpa using hc
            have htail : scan1 (w2 ++ (g ++ (q3 ++ y))) = none := by
              rw [scan1, hsps] at hsrc
              simpa [hcb, Option.map_eq_none'] using hsrc
            rw [scan1, hspt]
            simpa [hcb, Option.map_eq_none'] using hih htail
    simpa [List.append_assoc] using hgoal

/-! ### Specifications of the leftmost-match searches -/

theorem find1_some {s p g r : Str} (h : find1 s = some (p, g, r)) :
    s = p ++ lit1 ++ g ++ q3 ++ r ∧ '"' ∉ g := by
  induction s generalizing p g r with
  | nil => simp [find1] at h
  | cons c t ih =>
    rw [find1] at h
    split at h
    · rename_i r1 hsp
      split at h
      · rename_i gu hsc
        simp only [Option.some.injEq, Prod.mk.injEq] at h
        obtain ⟨h1, h2, h3⟩ := h
        subst h1; subst h2; subst h3
        have hx := stripPfx_some hsp
        obtain ⟨hy, hq⟩ := scan1_some hsc
        refine ⟨?_, hq⟩
        rw [hx, hy]
        simp
      · rename_i hsc
        rw [Option.map_eq_some'] at h
        obtain ⟨x, hx, heq⟩ := h
        simp only [Prod.mk.injEq] at heq
        obtain ⟨h1, h2, h3⟩ := heq
        subst h1; subst h2; subst h3
        obtain ⟨hy, hq⟩ := ih hx
        refine ⟨?_, hq⟩
        simp only [List.cons_append]
        rw [← hy]
    · rename_i hsp
      rw [Option.map_eq_some'] at h
      obtain ⟨x, hx, heq⟩ := h
      simp only [Prod.mk.injEq] at heq
      obtain ⟨h1, h2, h3⟩ := heq
      subst h1; subst h2; subst h3
      obtain ⟨hy, hq⟩ := ih hx
      refine ⟨?_, hq⟩
      simp only [List.cons_append]
      rw [← hy]

theorem find1_none {s : Str} (h : find1 s = none) :
    ∀ p r, s = p ++ lit1 ++ r → scan1 r = none := by
  induction s with
  | nil =>
    intro p r hpr
    have hl := congrArg List.length hpr
    simp [lit1, q3] at hl
    omega
  | cons c t ih =>
    intro p r hpr
    rw [find1] at h
    split at h
    · rename_i r1 hsp
      split at h
      · exact absurd h (by simp)
      · rename_i hsc
        have hft : find1 t = none := by
          rw [Option.map_eq_none'] at h
          exact h
        cases p with
        | nil =>
          have hpr2 : c :: t = lit1 ++ r := by simpa using hpr
          rw [hpr2, stripPfx_append] at hsp
          have : r1 = r := by
            have := hsp
            simp only [Option.some.injEq] at this
            exact this.symm
          rw [← this]
          exact hsc
        | cons c1 p1 =>
          simp only [List.cons_append, List.cons.injEq] at hpr
          exact ih hft p1 r hpr.2
    · rename_i hsp
      have hft : find1 t = none := by
        rw [Option.map_eq_none'] at h
        exact h
      cases p with
      | nil =>
        have hpr2 : c :: t = lit1 ++ r := by simpa using hpr
        rw [hpr2, stripPfx_append] at hsp
        exact absurd hsp (by simp)
      | cons c1 p1 =>
        simp only [List.cons_append, List.cons.injEq] at hpr
        exact ih hft p1 r hpr.2

theorem find1_min {s p g r : Str} (h : find1 s = some (p, g, r)) :
    ∀ p1 p2, p = p1 ++ p2 → p2 ≠ [] →
      ∀ z, p2 ++ lit1 ++ g ++ q3 ++ r = lit1 ++ z → scan1 z = none := by
  induction s generalizing p g r with
  | nil => simp [find1] at h
  | cons c t ih =>
    rw [find1] at h
    split at h
    · rename_i r1 hsp
      split at h
      · rename_i gu hsc
        simp only [Option.some.injEq, Prod.mk.injEq] at h
        obtain ⟨h1, h2, h3⟩ := h
        subst h1
        intro p1 p2 hp hne z hz
        exact absurd (List.append_eq_nil.mp hp.symm).2 hne
      · rename_i hsc
        rw [Option.map_eq_some'] at h
        obtain ⟨x, hx, heq⟩ := h
        simp only [Prod.mk.injEq] at heq
        obtain ⟨h1, h2, h3⟩ := heq
        subst h1; subst h2; subst h3
        intro p1 p2 hp hne z hz
        cases p1 with
        | nil =>
          have hp2 : c :: x.1 = p2 := by simpa using hp
          subst hp2
          have hs0 : c :: t = (c :: x.1) ++ lit1 ++ x.2.1 ++ q3 ++ x.2.2 := by
            obtain ⟨hy, _⟩ := find1_some hx
            simp only [List.cons_append]
            rw [← hy]
          have hlz : c :: t = lit1 ++ z := by rw [hs0]; exact hz
          rw [hlz, stripPfx_append] at hsp
          have hzr : z = r1 := by
            simp only [Option.some.injEq] at hsp
            exact hsp
          rw [hzr]
          exact hsc
        | cons c1 p1t =>
          simp only [List.cons_append, List.cons.injEq] at hp
          have hx1 : x.1 = p1t ++ p2 := hp.2
          exact ih hx p1t p2 hx1 hne z (by simpa using hz)
    · rename_i hsp
      rw [Option.map_eq_some'] at h
      obtain ⟨x, hx, heq⟩ := h
      simp only [Prod.mk.injEq] at heq
      obtain ⟨h1, h2, h3⟩ := heq
      subst h1; subst h2; subst h3
      intro p1 p2 hp hne z hz
      cases p1 with
      | nil =>
        have hp2 : c :: x.1 = p2 := by simpa using hp
        subst hp2
        have hs0 : c :: t = (c :: x.1) ++ lit1 ++ x.2.1 ++ q3 ++ x.2.2 := by
          obtain ⟨hy, _⟩ := find1_some hx
          simp only [List.cons_append]
          rw [← hy]
        have hlz : c :: t = lit1 ++ z := by rw [hs0]; exact hz
        rw [hlz, stripPfx_append] at hsp
        exact absurd hsp (by simp)
      | cons c1 p1t =>
        simp only [List.cons_append, List.cons.injEq] at hp
        exact ih hx p1t p2 hp.2 hne z (by simpa using hz)

theorem find1_len {s p g r : Str} (h : find1 s = some (p, g, r)) : r.length < s.length := by
  have hx := (find1_some h).1
  have hl := congrArg List.length hx
  simp only [List.length_append] at hl
  have h1 : lit1.length = 11 := by decide
  have h3 : q3.length = 3 := by decide
  omega

theorem find2_some {s p C r : Str} (h : find2 s = some (p, C, r)) :
    s = p ++ lit2 ++ C ++ ')' :: r ∧ ')' ∉ C := by
  induction s generalizing p C r with
  | nil => simp [find2] at h
  | cons c t ih =>
    rw [find2] at h
    split at h
    · rename_i r1 hsp
      split at h
      · rename_i cu hsc
        simp only [Option.some.injEq, Prod.mk.injEq] at h
        obtain ⟨h1, h2, h3⟩ := h
        subst h1; subst h2; subst h3
        have hx := stripPfx_some hsp
        obtain ⟨hy, hq⟩ := scanTo_some hsc
        refine ⟨?_, hq⟩
        rw [hx, hy]
        simp
      · rename_i hsc
        rw [Option.map_eq_some'] at h
        obtain ⟨x, hx, heq⟩ := h
        simp only [Prod.mk.injEq] at heq
        obtain ⟨h1, h2, h3⟩ := heq
        subst h1; subst h2; subst h3
        obtain ⟨hy, hq⟩ := ih hx
        refine ⟨?_, hq⟩
        simp only [List.cons_append]
        rw [← hy]
    · rename_i hsp
      rw [Option.map_eq_some'] at h
      obtain ⟨x, hx, heq⟩ := h
      simp only [Prod.mk.injEq] at heq
      obtain ⟨h1, h2, h3⟩ := heq
      subst h1; subst h2; subst h3
      obtain ⟨hy, hq⟩ := ih hx
      refine ⟨?_, hq⟩
      simp only [List.cons_append]
      rw [← hy]

theorem find2_none {s : Str} (h : find2 s = none) :
    ∀ p r, s = p ++ lit2 ++ r → scanTo ')' r = none := by
  induction s with
  | nil =>
    intro p r hpr
    have hl := congrArg List.length hpr
    simp [lit2] at hl
    omega
  | cons c t ih =>
    intro p r hpr
    rw [find2] at h
    split at h
    · rename_i r1 hsp
      split at h
      · exact absurd h (by simp)
      · rename_i hsc
        have hft : find2 t = none := by
          rw [Option.map_eq_none'] at h
          exact h
        cases p with
        | nil =>
          have hpr2 : c :: t = lit2 ++ r := by simpa using hpr
          rw [hpr2, stripPfx_append] at hsp
          have hzr : r1 = r := by
            simp only [Option.some.injEq] at hsp
            exact hsp.symm
          rw [← hzr]
          exact hsc
        | cons c1 p1 =>
          simp only [List.cons_append, List.cons.injEq] at hpr
          exact ih hft p1 r hpr.2
    · rename_i hsp
      have hft : find2 t = none := by
        rw [Option.map_eq_none'] at h
        exact h
      cases p with
      | nil =>
        have hpr2 : c :: t = lit2 ++ r := by simpa using hpr
        rw [hpr2, stripPfx_append] at hsp
        exact absurd hsp (by simp)
      | cons c1 p1 =>
        simp only [List.cons_append, List.cons.injEq] at hpr
        exact ih hft p1 r hpr.2

theorem find2_min {s p C r : Str} (h : find2 s = some (p, C, r)) :
    ∀ p1 p2, p = p1 ++ p2 → p2 ≠ [] →
      ∀ z, p2 ++ lit2 ++ C ++ ')' :: r = lit2 ++ z → scanTo ')' z = none := by
  induction s generalizing p C r with
  | nil => simp [find2] at h
  | cons c t ih =>
    rw [find2] at h
    split at h
    · rename_i r1 hsp
      split at h
      · rename_i cu hsc
        simp only [Option.some.injEq, Prod.mk.injEq] at h
        obtain ⟨h1, h2, h3⟩ := h
        subst h1
        intro p1 p2 hp hne z hz
        exact absurd (List.append_eq_nil.mp hp.symm).2 hne
      · rename_i hsc
        rw [Option.map_eq_some'] at h
        obtain ⟨x, hx, heq⟩ := h
        simp only [Prod.mk.injEq] at heq
        obtain ⟨h1, h2, h3⟩ := heq
        subst h1; subst h2; subst h3
        intro p1 p2 hp hne z hz
        cases p1 with
        | nil =>
          have hp2 : c :: x.1 = p2 := by simpa using hp
          subst hp2
          have hs0 : c :: t = (c :: x.1) ++ lit2 ++ x.2.1 ++ ')' :: x.2.2 := by
            obtain ⟨hy, _⟩ := find2_some hx
            simp only [List.cons_append]
            rw [← hy]
          have hlz : c :: t = lit2 ++ z := by rw [hs0]; exact hz
          rw [hlz, stripPfx_append] at hsp
          have hzr : z = r1 := by
            simp only [Option.some.injEq] at hsp
            exact hsp
          rw [hzr]
          exact hsc
        | cons c1 p1t =>
          simp only [List.cons_append, List.cons.injEq] at hp
          exact ih hx p1t p2 hp.2 hne z (by simpa using hz)
    · rename_i hsp
      rw [Option.map_eq_some'] at h
      obtain ⟨x, hx, heq⟩ := h
      simp only [Prod.mk.injEq] at heq
      obtain ⟨h1, h2, h3⟩ := heq
      subst h1; subst h2; subst h3
      intro p1 p2 hp hne z hz
      cases p1 with
      | nil =>
        have hp2 : c :: x.1 = p2 := by simpa using hp
        subst hp2
        have hs0 : c :: t = (c :: x.1) ++ lit2 ++ x.2.1 ++ ')' :: x.2.2 := by
          obtain ⟨hy, _⟩ := find2_some hx
          simp only [List.cons_append]
          rw [← hy]
        have hlz : c :: t = lit2 ++ z := by rw [hs0]; exact hz
        rw [hlz, stripPfx_append] at hsp
        exact absurd hsp (by simp)
      | cons c1 p1t =>
        simp only [List.cons_append, List.cons.injEq] at hp
        exact ih hx p1t p2 hp.2 hne z (by simpa using hz)

theorem find2_len {s p C r : Str} (h : find2 s = some (p, C, r)) : r.length < s.length := by
  have hx := (find2_some h).1
  have hl := congrArg List.length hx
  simp only [List.length_append, List.length_cons] at hl
  have h1 : lit2.length = 10 := by decide
  omega

theorem find3_some {s p A C r : Str} (h : find3 s = some (p, A, C, r)) :
    s = p ++ lit3 ++ A ++ '(' :: (C ++ ')' :: r) ∧ '(' ∉ A ∧
      endsWith dec6 A = true ∧ ')' ∉ C := by
  induction s generalizing p A C r with
  | nil => simp [find3] at h
  | cons c t ih =>
    rw [find3] at h
    split at h
    · rename_i r1 hsp
      split at h
      · rename_i ab hsp2
        split at h
        · rename_i hif
          split at h
          · rename_i cu hsc
            simp only [Option.some.injEq, Prod.mk.injEq] at h
            obtain ⟨h1, h2, h3, h4⟩ := h
            subst h1; subst h2; subst h3; subst h4
            have hx := stripPfx_some hsp
            obtain ⟨hy, hpn⟩ := scanTo_some hsp2
            obtain ⟨hz, hcn⟩ := scanTo_some hsc
            refine ⟨?_, hpn, hif, hcn⟩
            rw [hx, hy, hz]
            simp
          · rename_i hsc
            rw [Option.map_eq_some'] at h
            obtain ⟨x, hx, heq⟩ := h
            simp only [Prod.mk.injEq] at heq
            obtain ⟨h1, h2, h3, h4⟩ := heq
            subst h1; subst h2; subst h3; subst h4
            obtain ⟨hy, hrest⟩ := ih hx
            refine ⟨?_, hrest⟩
            simp only [List.cons_append]
            rw [← hy]
        · rename_i hif
          rw [Option.map_eq_some'] at h
          obtain ⟨x, hx, heq⟩ := h
          simp only [Prod.mk.injEq] at heq
          obtain ⟨h1, h2, h3, h4⟩ := heq
          subst h1; subst h2; subst h3; subst h4
          obtain ⟨hy, hrest⟩ := ih hx
          refine ⟨?_, hrest⟩
          simp only [List.cons_append]
          rw [← hy]
      · rename_i hsp2
        rw [Option.map_eq_some'] at h
        obtain ⟨x, hx, heq⟩ := h
        simp only [Prod.mk.injEq] at heq
        obtain ⟨h1, h2, h3, h4⟩ := heq
        subst h1; subst h2; subst h3; subst h4
        obtain ⟨hy, hrest⟩ := ih hx
        refine ⟨?_, hrest⟩
        simp only [List.cons_append]
        rw [← hy]
    · rename_i hsp
      rw [Option.map_eq_some'] at h
      obtain ⟨x, hx, heq⟩ := h
      simp only [Prod.mk.injEq] at heq
      obtain ⟨h1, h2, h3, h4⟩ := heq
      subst h1; subst h2; subst h3; subst h4
      obtain ⟨hy, hrest⟩ := ih hx
      refine ⟨?_, hrest⟩
      simp only [List.cons_append]
      rw [← hy]

theorem find3_none {s : Str} (h : find3 s = none) :
    ∀ p r, s = p ++ lit3 ++ r → ∀ A B, scanTo '(' r = some (A, B) →
      endsWith dec6 A = true → scanTo ')' B = none := by
  induction s with
  | nil =>
    intro p r hpr
    have hl := congrArg List.length hpr
    simp [lit3] at hl
    omega
  | cons c t ih =>
    intro p r hpr A B hAB hend
    rw [find3] at h
    split at h
    · rename_i r1 hsp
      split at h
      · rename_i ab hsp2
        split at h
        · rename_i hif
          split at h
          · exact absurd h (by simp)
          · rename_i hsc
            have hft : find3 t = none := by
              rw [Option.map_eq_none'] at h
              exact h
            cases p with
            | nil =>
              have hpr2 : c :: t = lit3 ++ r := by simpa using hpr
              rw [hpr2, stripPfx_append] at hsp
              have hzr : r1 = r := by
                simp only [Option.some.injEq] at hsp
                exact hsp.symm
              subst hzr
              rw [hAB] at hsp2
              simp only [Option.some.injEq] at hsp2
              subst hsp2
              simpa using hsc
            | cons c1 p1 =>
              simp only [List.cons_append, List.cons.injEq] at hpr
              exact ih hft p1 r hpr.2 A B hAB hend
        · rename_i hif
          have hft : find3 t = none := by
            rw [Option.map_eq_none'] at h
            exact h
          cases p with
          | nil =>
            have hpr2 : c :: t = lit3 ++ r := by simpa using hpr
            rw [hpr2, stripPfx_append] at hsp
            have hzr : r1 = r := by
              simp only [Option.some.injEq] at hsp
              exact hsp.symm
            subst hzr
            rw [hAB] at hsp2
            simp only [Option.some.injEq] at hsp2
            subst hsp2
            exact absurd (by simpa using hend) hif
          | cons c1 p1 =>
            simp only [List.cons_append, List.cons.injEq] at hpr
            exact ih hft p1 r hpr.2 A B hAB hend
      · rename_i hsp2
        have hft : find3 t = none := by
          rw [Option.map_eq_none'] at h
          exact h
        cases p with
        | nil =>
          have hpr2 : c :: t = lit3 ++ r := by simpa using hpr
          rw [hpr2, stripPfx_append] at hsp
          have hzr : r1 = r := by
            simp only [Option.some.injEq] at hsp
            exact hsp.symm
          subst hzr
          rw [hAB] at hsp2
          exact absurd hsp2 (by simp)
        | cons c1 p1 =>
          simp only [List.cons_append, List.cons.injEq] at hpr
          exact ih hft p1 r hpr.2 A B hAB hend
    · rename_i hsp
      have hft : find3 t = none := by
        rw [Option.map_eq_none'] at h
        exact h
      cases p with
      | nil =>
        have hpr2 : c :: t = lit3 ++ r := by simpa using hpr
        rw [hpr2, stripPfx_append] at hsp
        exact absurd hsp (by simp)
      | cons c1 p1 =>
        simp only [List.cons_append, List.cons.injEq] at hpr
        exact ih hft p1 r hpr.2 A B hAB hend

theorem find3_min {s p A C r : Str} (h : find3 s = some (p, A, C, r)) :
    ∀ p1 p2, p = p1 ++ p2 → p2 ≠ [] →
      ∀ z, p2 ++ lit3 ++ A ++ '(' :: (C ++ ')' :: r) = lit3 ++ z →
        ∀ A2 B2, scanTo '(' z = some (A2, B2) → endsWith dec6 A2 = true →
          scanTo ')' B2 = none := by
  induction s generalizing p A C r with
  | nil => simp [find3] at h
  | cons c t ih =>
    have hs0 := (find3_some h).1
    rw [find3] at h
    split at h
    · rename_i r1 hsp
      split at h
      · rename_i ab hsp2
        split at h
        · rename_i hif
          split at h
          · rename_i cu hsc
            simp only [Option.some.injEq, Prod.mk.injEq] at h
            obtain ⟨h1, h2, h3, h4⟩ := h
            subst h1
            intro p1 p2 hp hne z hz
            exact absurd (List.append_eq_nil.mp hp.symm).2 hne
          · rename_i hsc
            rw [Option.map_eq_some'] at h
            obtain ⟨x, hx, heq⟩ := h
            simp only [Prod.mk.injEq] at heq
            obtain ⟨h1, h2, h3, h4⟩ := heq
            subst h1; subst h2; subst h3; subst h4
            intro p1 p2 hp hne z hz A2 B2 hAB2 hend2
            cases p1 with
            | nil =>
              have hp2 : c :: x.1 = p2 := by simpa using hp
              subst hp2
              have hlz : c :: t = lit3 ++ z := by rw [hs0]; exact hz
              rw [hlz, stripPfx_append] at hsp
              have hzr : z = r1 := by
                simp only [Option.some.injEq] at hsp
                exact hsp
              subst hzr
              rw [hAB2] at hsp2
              simp only [Option.some.injEq] at hsp2
              subst hsp2
              simpa using hsc
            | cons c1 p1t =>
              simp only [List.cons_append, List.cons.injEq] at hp
              exact ih hx p1t p2 hp.2 hne z (by simpa using hz) A2 B2 hAB2 hend2
        · rename_i hif
          rw [Option.map_eq_some'] at h
          obtain ⟨x, hx, heq⟩ := h
          simp only [Prod.mk.injEq] at heq
          obtain ⟨h1, h2, h3, h4⟩ := heq
          subst h1; subst h2; subst h3; subst h4
          intro p1 p2 hp hne z hz A2 B2 hAB2 hend2
          cases p1 with
          | nil =>
            have hp2 : c :: x.1 = p2 := by simpa using hp
            subst hp2
            have hlz : c :: t = lit3 ++ z := by rw [hs0]; exact hz
            rw [hlz, stripPfx_append] at hsp
            have hzr : z = r1 := by
              simp only [Option.some.injEq] at hsp
              exact hsp
            subst hzr
            rw [hAB2] at hsp2
            simp only [Option.some.injEq] at hsp2
            subst hsp2
            exact absurd (by simpa using hend2) hif
          | cons c1 p1t =>
            simp only [List.cons_append, List.cons.injEq] at hp
            exact ih hx p1t p2 hp.2 hne z (by simpa using hz) A2 B2 hAB2 hend2
      · rename_i hsp2
        rw [Option.map_eq_some'] at h
        obtain ⟨x, hx, heq⟩ := h
        simp only [Prod.mk.injEq] at heq
        obtain ⟨h1, h2, h3, h4⟩ := heq
        subst h1; subst h2; subst h3; subst h4
        intro p1 p2 hp hne z hz A2 B2 hAB2 hend2
        cases p1 with
        | nil =>
          have hp2 : c :: x.1 = p2 := by simpa using hp
          subst hp2
          have hlz : c :: t = lit3 ++ z := by rw [hs0]; exact hz
          rw [hlz, stripPfx_append] at hsp
          have hzr : z = r1 := by
            simp only [Option.some.injEq] at hsp
            exact hsp
          subst hzr
          rw [hAB2] at hsp2
          exact absurd hsp2 (by simp)
        | cons c1 p1t =>
          simp only [List.cons_append, List.cons.injEq] at hp
          exact ih hx p1t p2 hp.2 hne z (by simpa using hz) A2 B2 hAB2 hend2
    · rename_i hsp
      rw [Option.map_eq_some'] at h
      obtain ⟨x, hx, heq⟩ := h
      simp only [Prod.mk.injEq] at heq
      obtain ⟨h1, h2, h3, h4⟩ := heq
      subst h1; subst h2; subst h3; subst h4
      intro p1 p2 hp hne z hz A2 B2 hAB2 hend2
      cases p1 with
      | nil =>
        have hp2 : c :: x.1 = p2 := by simpa using hp
        subst hp2
        have hlz : c :: t = lit3 ++ z := by rw [hs0]; exact hz
        rw [hlz, stripPfx_append] at hsp
        exact absurd hsp (by simp)
      | cons c1 p1t =>
        simp only [List.cons_append, List.cons.injEq] at hp
        exact ih hx p1t p2 hp.2 hne z (by simpa using hz) A2 B2 hAB2 hend2

theorem find3_len {s p A C r : Str} (h : find3 s = some (p, A, C, r)) :
    r.length < s.length := by
  have hx := (find3_some h).1
  have hl := congrArg List.length hx
  simp only [List.length_append, List.length_cons] at hl
  have h1 : lit3.length = 7 := by decide
  omega

/-! ### Unfolding equations for replace-all -/

theorem pat1Go_agree : ∀ f g s, s.length ≤ f → s.length ≤ g → pat1Go f s = pat1Go g s := by
  intro f
  induction f with
  | zero =>
    intro g s hf hg
    have hs : s = [] := List.length_eq_zero.mp (Nat.le_zero.mp hf)
    subst hs
    cases g with
    | zero => rfl
    | succ g2 => simp [pat1Go, find1]
  | succ f2 ih =>
    intro g s hf hg
    cases hfind : find1 s with
    | none =>
      cases g with
      | zero => simp [pat1Go, hfind]
      | succ g2 => simp [pat1Go, hfind]
    | some x =>
      obtain ⟨p, g1, r⟩ := x
      have hr := find1_len hfind
      cases g with
      | zero =>
        exfalso
        have h0 : s.length = 0 := Nat.le_zero.mp hg
        omega
      | succ g2 =>
        have h1 : pat1Go (f2 + 1) s = p ++ R1 ++ pat1Go f2 r := by
          simp [pat1Go, hfind]
        have h2 : pat1Go (g2 + 1) s = p ++ R1 ++ pat1Go g2 r := by
          simp [pat1Go, hfind]
        rw [h1, h2, ih g2 r (by omega) (by omega)]

theorem pat1_none {s : Str} (h : find1 s = none) : pat1 s = s := by
  cases hn : s.length with
  | zero => simp [pat1, hn, pat1Go]
  | succ k => simp [pat1, hn, pat1Go, h]

theorem pat1_some {s p g r : Str} (h : find1 s = some (p, g, r)) :
    pat1 s = p ++ R1 ++ pat1 r := by
  have hr := find1_len h
  have hlen : s.length = (s.length - 1) + 1 := by omega
  show pat1Go s.length s = p ++ R1 ++ pat1 r
  rw [hlen]
  simp only [pat1Go, h]
  rw [pat1Go_agree (s.length - 1) r.length r (by omega) (le_refl _)]
  rfl

theorem pat2Go_agree : ∀ f g s, s.length ≤ f → s.length ≤ g → pat2Go f s = pat2Go g s := by
  intro f
  induction f with
  | zero =>
    intro g s hf hg
    have hs : s = [] := List.length_eq_zero.mp (Nat.le_zero.mp hf)
    subst hs
    cases g with
    | zero => rfl
    | succ g2 => simp [pat2Go, find2]
  | succ f2 ih =>
    intro g s hf hg
    cases hfind : find2 s with
    | none =>
      cases g with
      | zero => simp [pat2Go, hfind]
      | succ g2 => simp [pat2Go, hfind]
    | some x =>
      obtain ⟨p, g1, r⟩ := x
      have hr := find2_len hfind
      cases g with
      | zero =>
        exfalso
        have h0 : s.length = 0 := Nat.le_zero.mp hg
        omega
      | succ g2 =>
        have h1 : pat2Go (f2 + 1) s = p ++ R2 ++ pat2Go f2 r := by
          simp [pat2Go, hfind]
        have h2 : pat2Go (g2 + 1) s = p ++ R2 ++ pat2Go g2 r := by
          simp [pat2Go, hfind]
        rw [h1, h2, ih g2 r (by omega) (by omega)]

theorem pat2_none {s : Str} (h : find2 s = none) : pat2 s = s := by
  cases hn : s.length with
  | zero => simp [pat2, hn, pat2Go]
  | succ k => simp [pat2, hn, pat2Go, h]

theorem pat2_some {s p C r : Str} (h : find2 s = some (p, C, r)) :
    pat2 s = p ++ R2 ++ pat2 r := by
  have hr := find2_len h
  have hlen : s.length = (s.length - 1) + 1 := by omega
  show pat2Go s.length s = p ++ R2 ++ pat2 r
  rw [hlen]
  simp only [pat2Go, h]
  rw [pat2Go_agree (s.length - 1) r.length r (by omega) (le_refl _)]
  rfl

theorem pat3Go_agree : ∀ f g s, s.length ≤ f → s.length ≤ g → pat3Go f s = pat3Go g s := by
  intro f
  induction f with
  | zero =>
    intro g s hf hg
    have hs : s = [] := List.length_eq_zero.mp (Nat.le_zero.mp hf)
    subst hs
    cases g with
    | zero => rfl
    | succ g2 => simp [pat3Go, find3]
  | succ f2 ih =>
    intro g s hf hg
    cases hfind : find3 s with
    | none =>
      cases g with
      | zero => simp [pat3Go, hfind]
      | succ g2 => simp [pat3Go, hfind]
    | some x =>
      obtain ⟨p, A, C, r⟩ := x
      have hr := find3_len hfind
      cases g with
      | zero =>
        exfalso
        have h0 : s.length = 0 := Nat.le_zero.mp hg
        omega
      | succ g2 =>
        have h1 : pat3Go (f2 + 1) s = p ++ R3 A ++ pat3Go f2 r := by
          simp [pat3Go, hfind]
        have h2 : pat3Go (g2 + 1) s = p ++ R3 A ++ pat3Go g2 r := by
          simp [pat3Go, hfind]
        rw [h1, h2, ih g2 r (by omega) (by omega)]

theorem pat3_none {s : Str} (h : find3 s = none) : pat3 s = s := by
  cases hn : s.length with
  | zero => simp [pat3, hn, pat3Go]
  | succ k => simp [pat3, hn, pat3Go, h]

theorem pat3_some {s p A C r : Str} (h : find3 s = some (p, A, C, r)) :
    pat3 s = p ++ R3 A ++ pat3 r := by
  have hr := find3_len h
  have hlen : s.length = (s.length - 1) + 1 := by omega
  show pat3Go s.length s = p ++ R3 A ++ pat3 r
  rw [hlen]
  simp only [pat3Go, h]
  rw [pat3Go_agree (s.length - 1) r.length r (by omega) (le_refl _)]
  rfl

/-! ### Occurrence decomposition of a concatenation -/

theorem occ_split {x y p l r : Str} (h : x ++ y = p ++ l ++ r) :
    (∃ t, x = p ++ l ++ t ∧ r = t ++ y) ∨
    (∃ t, p = x ++ t ∧ y = t ++ l ++ r) ∨
    (∃ a b, l = a ++ b ∧ a ≠ [] ∧ b ≠ [] ∧ x = p ++ a ∧ y = b ++ r) := by
  rw [List.append_assoc] at h
  rcases List.append_eq_append_iff.mp h with ⟨e, he1, he2⟩ | ⟨e, he1, he2⟩
  · refine Or.inr (Or.inl ⟨e, he1, ?_⟩)
    rw [he2]
    simp
  · rcases List.append_eq_append_iff.mp he2 with ⟨d, hd1, hd2⟩ | ⟨d, hd1, hd2⟩
    · refine Or.inl ⟨d, ?_, hd2⟩
      rw [he1, hd1]
      simp
    · by_cases he : e = []
      · refine Or.inr (Or.inl ⟨[], ?_, ?_⟩)
        · rw [he1, he]
          simp
        · rw [hd2, hd1, he]
          simp
      · by_cases hd : d = []
        · refine Or.inl ⟨[], ?_, ?_⟩
          · rw [he1, hd1, hd]
            simp
          · rw [hd2, hd]
            simp
        · exact Or.inr (Or.inr ⟨e, d, hd1, he, hd, he1, hd2⟩)

/-! ### Suffix closure and fixpoints of the redaction invariants -/

theorem P1_suffix {a b : Str} (h : P1 (a ++ b)) : P1 b := by
  intro p r hpr g u hsc
  exact h (a ++ p) r (by rw [hpr]; simp) g u hsc

theorem P2_suffix {a b : Str} (h : P2 (a ++ b)) : P2 b := by
  intro p r hpr C u hsc
  exact h (a ++ p) r (by rw [hpr]; simp) C u hsc

theorem P3_suffix {a b : Str} (h : P3 (a ++ b)) : P3 b := by
  intro p r hpr A B hAB hend C u hsc
  exact h (a ++ p) r (by rw [hpr]; simp) A B hAB hend C u hsc

theorem pat1_fix {s : Str} (h : P1 s) : pat1 s = s := by
  have main : ∀ n s, s.length ≤ n → P1 s → pat1 s = s := by
    intro n
    induction n with
    | zero =>
      intro s hl _
      have hs : s = [] := List.length_eq_zero.mp (Nat.le_zero.mp hl)
      subst hs
      exact pat1_none rfl
    | succ n ih =>
      intro s hl hp
      cases hfind : find1 s with
      | none => exact pat1_none hfind
      | some x =>
        obtain ⟨p, g, r⟩ := x
        obtain ⟨hs, hq⟩ := find1_some hfind
        have hscan : scan1 (g ++ q3 ++ r) = some (g, r) := scan1_of hq
        have hgph : g = ph :=
          hp p (g ++ q3 ++ r) (by simp [hs]) g r hscan
        have hsfx : s = (p ++ lit1 ++ g ++ q3) ++ r := by simp [hs]
        have hP1r : P1 r := P1_suffix (hsfx ▸ hp)
        have hr := find1_len hfind
        rw [pat1_some hfind, ih r (by omega) hP1r, hs, hgph]
        try simp [R1]
  exact main s.length s (le_refl _) h

theorem pat2_fix {s : Str} (h : P2 s) : pat2 s = s := by
  have main : ∀ n s, s.length ≤ n → P2 s → pat2 s = s := by
    intro n
    induction n with
    | zero =>
      intro s hl _
      have hs : s = [] := List.length_eq_zero.mp (Nat.le_zero.mp hl)
      subst hs
      exact pat2_none rfl
    | succ n ih =>
      intro s hl hp
      cases hfind : find2 s with
      | none => exact pat2_none hfind
      | some x =>
        obtain ⟨p, C, r⟩ := x
        obtain ⟨hs, hq⟩ := find2_some hfind
        have hscan : scanTo ')' (C ++ ')' :: r) = some (C, r) := scanTo_of hq
        have hgph : C = phq :=
          hp p (C ++ ')' :: r) (by simp [hs]) C r hscan
        have hsfx : s = (p ++ lit2 ++ C ++ [')']) ++ r := by simp [hs]
        have hP2r : P2 r := P2_suffix (hsfx ▸ hp)
        have hr := find2_len hfind
        rw [pat2_some hfind, ih r (by omega) hP2r, hs, hgph]
        try simp [R2]
  exact main s.length s (le_refl _) h

theorem pat3_fix {s : Str} (h : P3 s) : pat3 s = s := by
  have main : ∀ n s, s.length ≤ n → P3 s → pat3 s = s := by
    intro n
    induction n with
    | zero =>
      intro s hl _
      have hs : s = [] := List.length_eq_zero.mp (Nat.le_zero.mp hl)
      subst hs
      exact pat3_none rfl
    | succ n ih =>
      intro s hl hp
      cases hfind : find3 s with
      | none => exact pat3_none hfind
      | some x =>
        obtain ⟨p, A, C, r⟩ := x
        obtain ⟨hs, hA, hend, hC⟩ := find3_some hfind
        have hscan1 : scanTo '(' (A ++ '(' :: (C ++ ')' :: r)) =
            some (A, C ++ ')' :: r) := scanTo_of hA
        have hscan2 : scanTo ')' (C ++ ')' :: r) = some (C, r) := scanTo_of hC
        have hgph : C = phq :=
          hp p (A ++ '(' :: (C ++ ')' :: r)) (by simp [hs]) A (C ++ ')' :: r)
            hscan1 hend C r hscan2
        have hsfx : s = (p ++ lit3 ++ A ++ '(' :: C ++ [')']) ++ r := by simp [hs]
        have hP3r : P3 r := P3_suffix (hsfx ▸ hp)
        have hr := find3_len hfind
        rw [pat3_some hfind, ih r (by omega) hP3r, hs, hgph]
        try simp [R3]
  exact main s.length s (le_refl _) h

/-! ### Claims C2, C5, C6, C8, C10 -/

/-- Claim C2, counterexample: the file name `x.so.js` has the lower-cased
extension `js`, which is present in the default allowed-extension set, yet
`should_ignore_ext` returns true (the `.so.` clause fires), refuting the
claimed equivalence "ignored iff lower-cased extension absent from
allowedExtensions". -/
theorem c2_counterexample :
    should_ignore_ext defaultProcessor (some ("x.so.js".toList)) = true ∧
    rustExtension ("x.so.js".toList) = some ("js".toList) ∧
    defaultProcessor.allowed_exts.contains (lowerStr ("js".toList)) = true := by decide

/-- Claim C2, amended: for every configuration and file name,
`should_ignore_ext` returns true exactly when the name has no usable
extension (no dot, a trailing dot, a `Path::extension` of `none`, or an
empty extension), or the lower-cased name contains `.so.`, or the
lower-cased extension is absent from the allowed-extension set. -/
theorem c2_allowlist_ext_filter (p : RepoProcessor) (f : Str) :
    should_ignore_ext p (some f) = true ↔
      ('.' ∉ f ∨ f.getLast? = some '.' ∨
       containsSub soDot (lowerStr f) = true ∨
       rustExtension f = none ∨
       (∃ e, rustExtension f = some e ∧ lowerStr e = []) ∨
       (∃ e, rustExtension f = some e ∧ lowerStr e ∉ p.allowed_exts)) := by
  unfold should_ignore_ext
  simp only [Option.getD_some]
  by_cases h1 : f.contains '.' = true
  · have h1b : '.' ∈ f := by simpa using h1
    by_cases h2 : f.getLast? = some '.'
    · simp [h1, h2, h1b]
    · have h2b : (f.getLast? == some '.') = false := by simp [h2]
      by_cases h3 : containsSub soDot (lowerStr f) = true
      · simp [h1, h2b, h3, h1b, h2]
      · have h3b : containsSub soDot (lowerStr f) = false := by simpa using h3
        cases hre : rustExtension f with
        | none => simp [h1, h2b, h3b, hre, h1b, h2]
        | some e =>
          by_cases h4 : lowerStr e = []
          · simp [h1, h2b, h3b, hre, h4, h1b, h2]
          · have h4b : (lowerStr e).isEmpty = false := by
              simpa [List.isEmpty_iff] using h4
            by_cases h5 : lowerStr e ∈ p.allowed_exts
            · have h5b : p.allowed_exts.contains (lowerStr e) = true := by simpa using h5
              simp [h1, h2b, h3b, hre, h4, h4b, h5, h5b, h1b, h2]
            · have h5b : p.allowed_exts.contains (lowerStr e) = false := by simpa using h5
              simp [h1, h2b, h3b, hre, h4, h4b, h5, h5b, h1b, h2]
  · have h1b : '.' ∉ f := by simpa using h1
    have h1c : f.contains '.' = false := by simpa using h1
    simp [h1c, h1b]

/-- Claim C5, counterexample: `should_ignore_dir` accepts `..git` because
`trim_start_matches('.')` strips every leading dot, although neither `..git`
nor `.git` (one dot stripped, compared case-insensitively) is a member of the
default ignored-directory set. -/
theorem c5_counterexample :
    should_ignore_dir defaultProcessor ("..git".toList) = true ∧
    defaultProcessor.ignored_dirs.contains (lowerStr ("..git".toList)) = false ∧
    defaultProcessor.ignored_dirs.contains (lowerStr (".git".toList)) = false := by decide

/-- Claim C5, amended: `should_ignore_dir` returns true exactly when the
directory name, lower-cased and with every leading dot stripped, is a member
of the configured ignored-directory set. -/
theorem c5_should_ignore_dir (p : RepoProcessor) (d : Str) :
    should_ignore_dir p d = true ↔
      (lowerStr d).dropWhile (fun c => c == '.') ∈ p.ignored_dirs := by
  unfold should_ignore_dir trimStartDots
  simp

/-- Claim C6 (code bug): the final bytes of `repo_content.txt` are the header
written over the start of the block bytes, because the second `File::create`
truncates the file and the first handle flushes its buffered header at offset
0 last; with one processed file the output therefore differs from the
specified header-then-intact-blocks layout, whose first block banner is
destroyed.  The block banners do have 47 `=` characters and the header banner
49. -/
theorem c6_header_overwrites_first_block :
    (∀ ts blocks, process_repository_bytes ts blocks =
        header_lines ts ++ (joinBlocks blocks).drop (header_lines ts).length) ∧
    process_repository_bytes ("t".toList) [process_file_block ("a.py".toList) ("x".toList)] ≠
      spec_output_bytes ("t".toList) [process_file_block ("a.py".toList) ("x".toList)] ∧
    banner47.length = 47 ∧ banner49.length = 49 := by
  refine ⟨?_, by decide, by decide, by decide⟩
  intro ts blocks
  simp [process_repository_bytes, fileWrite]

/-- Claim C8: the aggregation is fail-fast.  If any file's extraction
returns an error, the whole run returns an error; and a successful run
implies every file was extracted (no per-file skip). -/
theorem c8_fail_fast {α ε β : Type} (extract : α → Except ε β) (files : List α)
    (h : ∃ f ∈ files, ∃ e, extract f = .error e) :
    (∃ e2, runExtraction extract files = .error e2) ∧
    (∀ bs, runExtraction extract files = .ok bs →
      bs.length = files.length ∧ ∀ f ∈ files, ∃ b, extract f = .ok b) := by
  constructor
  · obtain ⟨f, hf, e, he⟩ := h
    induction files with
    | nil => simp at hf
    | cons a t ih =>
      simp only [List.mem_cons] at hf
      cases hf with
      | inl hfa =>
        subst hfa
        refine ⟨e, ?_⟩
        simp [runExtraction, he]
      | inr hft =>
        obtain ⟨e2, he2⟩ := ih hft
        cases hea : extract a with
        | error ea => exact ⟨ea, by simp [runExtraction, hea]⟩
        | ok b => exact ⟨e2, by simp [runExtraction, hea, he2, Except.map]⟩
  · intro bs hok
    clear h
    induction files generalizing bs with
    | nil =>
      simp only [runExtraction, Except.ok.injEq] at hok
      subst hok
      simp
    | cons a t ih =>
      simp only [runExtraction] at hok
      cases hea : extract a with
      | error ea => rw [hea] at hok; exact absurd hok (by simp)
      | ok b =>
        rw [hea] at hok
        cases hrest : runExtraction extract t with
        | error e3 => rw [hrest] at hok; exact absurd hok (by simp [Except.map])
        | ok bs2 =>
          rw [hrest] at hok
          have hbs : bs = b :: bs2 := by
            simp only [Except.map, Except.ok.injEq] at hok
            exact hok.symm
          subst hbs
          obtain ⟨hlen, hall⟩ := ih bs2 hrest
          refine ⟨by simp [hlen], ?_⟩
          intro f hf
          simp only [List.mem_cons] at hf
          cases hf with
          | inl hfa => exact ⟨b, hfa ▸ hea⟩
          | inr hft => exact hall f hft

/-- Claim C8, witness: a three-file run where the second file's extraction
fails aborts with an error. -/
theorem c8_fail_fast_witness :
    ∃ e2, runExtraction
      (fun n : Nat => if n = 1 then Except.error "boom" else Except.ok n)
      [0, 1, 2] = .error e2 :=
  (c8_fail_fast (fun n : Nat => if n = 1 then Except.error "boom" else Except.ok n)
    [0, 1, 2] ⟨1, by decide, "boom", rfl⟩).1

/-- Claim C10: `should_ignore_ext` is total, and on a path with no file-name
component it takes the file name to be the empty string and returns true, so
the extension filter can never accept such a path. -/
theorem c10_no_filename_rejected (p : RepoProcessor) :
    should_ignore_ext p none = true := rfl

/-! ### Claim C4: walker pruning -/

mutual

theorem walkEntry_paths (p : RepoProcessor) (e : FsEntry) :
    ∀ path ∈ walkEntry p e, path ≠ [] ∧
      ∀ d ∈ path.dropLast, should_ignore_dir p d = false := by
  intro path hmem
  cases e with
  | file nm sz =>
    rw [walkEntry] at hmem
    split at hmem
    · simp at hmem
    · have hp : path = [nm] := by simpa using hmem
      subst hp
      simp
  | dir nm cs =>
    rw [walkEntry] at hmem
    split at hmem
    · simp at hmem
    · rename_i hnig
      rw [List.mem_map] at hmem
      obtain ⟨q, hq, hpath⟩ := hmem
      obtain ⟨hqne, hqdirs⟩ := walkChildren_paths p cs q hq
      subst hpath
      refine ⟨by simp, ?_⟩
      intro d hd
      rw [List.dropLast_cons_of_ne_nil hqne, List.mem_cons] at hd
      cases hd with
      | inl hdn =>
        subst hdn
        simpa using hnig
      | inr hdq => exact hqdirs d hdq

theorem walkChildren_paths (p : RepoProcessor) (es : List FsEntry) :
    ∀ path ∈ walkChildren p es, path ≠ [] ∧
      ∀ d ∈ path.dropLast, should_ignore_dir p d = false := by
  intro path hmem
  cases es with
  | nil => simp [walkChildren] at hmem
  | cons e es2 =>
    rw [walkChildren, List.mem_append] at hmem
    cases hmem with
    | inl h1 => exact walkEntry_paths p e path h1
    | inr h2 => exact walkChildren_paths p es2 path h2

end

/-- Claim C4: a directory whose base name is accepted by `should_ignore_dir`
contributes nothing to the walk (the whole subtree is pruned before descent),
and every emitted path has no ignored directory among its directory
components. -/
theorem c4_walker_pruning (p : RepoProcessor) (nm : Str) (cs : List FsEntry)
    (h : should_ignore_dir p nm = true) :
    walkEntry p (FsEntry.dir nm cs) = [] ∧
    (∀ root path, path ∈ collect_files p root →
      ∀ d ∈ path.dropLast, should_ignore_dir p d = false) := by
  constructor
  · rw [walkEntry]
    simp [h]
  · intro root path hmem d hd
    exact (walkChildren_paths p root path hmem).2 d hd

/-- Claim C4, witness: the default configuration prunes a `node_modules`
directory entirely. -/
theorem c4_walker_pruning_witness :
    walkEntry defaultProcessor
      (FsEntry.dir ("node_modules".toList) [FsEntry.file ("x.js".toList) 10]) = [] :=
  (c4_walker_pruning defaultProcessor ("node_modules".toList)
    [FsEntry.file ("x.js".toList) 10] (by decide)).1

/-! ### Claim C9: configuration assembly precedence -/

theorem hsInsert_mem {x y : Str} {l : List Str} : y ∈ hsInsert x l ↔ y ∈ l ∨ y = x := by
  unfold hsInsert
  split
  · rename_i hcon
    have hx : x ∈ l := by simpa using hcon
    constructor
    · exact Or.inl
    · rintro (h | rfl)
      · exact h
      · exact hx
  · simp [List.mem_append]

theorem hsRemove_mem {x y : Str} {l : List Str} : y ∈ hsRemove x l ↔ y ∈ l ∧ y ≠ x := by
  unfold hsRemove
  simp [List.mem_filter]

theorem applyIgnore_unfold {item : Str} (st : List Str × List Str)
    (h : lowerStr (trimStartDots (rustTrim item)) ≠ []) :
    applyIgnoreItem st item =
      (hsInsert (lowerStr (trimStartDots (rustTrim item))) st.1,
       hsRemove (lowerStr (trimStartDots (rustTrim item))) st.2) := by
  simp only [applyIgnoreItem]
  have h1 : (rustTrim item).isEmpty = false := by
    by_cases hc : rustTrim item = []
    · exfalso
      apply h
      simp [hc, trimStartDots, lowerStr]
    · simpa [List.isEmpty_iff] using hc
  rw [h1]
  simp only [Bool.false_eq_true, if_false]
  have h2 : (lowerStr (trimStartDots (rustTrim item))).isEmpty = false := by
    simpa [List.isEmpty_iff] using h
  rw [h2]
  simp

theorem applyInclude_unfold {item : Str} (ex : List Str)
    (h : lowerStr (trimStartDots (rustTrim item)) ≠ []) :
    applyIncludeItem ex item = hsInsert (lowerStr (trimStartDots (rustTrim item))) ex := by
  simp only [applyIncludeItem]
  have h1 : (rustTrim item).isEmpty = false := by
    by_cases hc : rustTrim item = []
    · exfalso
      apply h
      simp [hc, trimStartDots, lowerStr]
    · simpa [List.isEmpty_iff] using hc
  rw [h1]
  simp only [Bool.false_eq_true, if_false]
  have h2 : (lowerStr (trimStartDots (rustTrim item))).isEmpty = false := by
    simpa [List.isEmpty_iff] using h
  rw [h2]
  simp

theorem applyIgnore_dirs_mono {y : Str} (st : List Str × List Str) (i : Str)
    (hy : y ∈ st.1) : y ∈ (applyIgnoreItem st i).1 := by
  simp only [applyIgnoreItem]
  split
  · exact hy
  · split
    · exact hy
    · exact hsInsert_mem.mpr (Or.inl hy)

theorem applyIgnore_exts_sub {y : Str} (st : List Str × List Str) (i : Str)
    (hy : y ∈ (applyIgnoreItem st i).2) : y ∈ st.2 := by
  simp only [applyIgnoreItem] at hy
  split at hy
  · exact hy
  · split at hy
    · exact hy
    · exact (hsRemove_mem.mp hy).1

theorem ignoreFold_dirs_mono {y : Str} :
    ∀ (items : List Str) (st : List Str × List Str), y ∈ st.1 →
      y ∈ (items.foldl applyIgnoreItem st).1 := by
  intro items
  induction items with
  | nil => intro st hy; simpa using hy
  | cons i it ih =>
    intro st hy
    rw [List.foldl_cons]
    exact ih _ (applyIgnore_dirs_mono st i hy)

theorem ignoreFold_exts_sub {y : Str} :
    ∀ (items : List Str) (st : List Str × List Str),
      y ∈ (items.foldl applyIgnoreItem st).2 → y ∈ st.2 := by
  intro items
  induction items with
  | nil => intro st hy; simpa using hy
  | cons i it ih =>
    intro st hy
    rw [List.foldl_cons] at hy
    exact applyIgnore_exts_sub st i (ih _ hy)

theorem ignoreFold_dirs_insert {x : Str} :
    ∀ (items : List Str) (st : List Str × List Str), x ∈ items →
      lowerStr (trimStartDots (rustTrim x)) ≠ [] →
      lowerStr (trimStartDots (rustTrim x)) ∈ (items.foldl applyIgnoreItem st).1 := by
  intro items
  induction items with
  | nil => intro st hx; simp at hx
  | cons i it ih =>
    intro st hx hc
    rw [List.foldl_cons]
    rw [List.mem_cons] at hx
    cases hx with
    | inl hxi =>
      subst hxi
      apply ignoreFold_dirs_mono
      rw [applyIgnore_unfold st hc]
      exact hsInsert_mem.mpr (Or.inr rfl)
    | inr hxit => exact ih _ hxit hc

theorem ignoreFold_exts_removed {x : Str} :
    ∀ (items : List Str) (st : List Str × List Str), x ∈ items →
      lowerStr (trimStartDots (rustTrim x)) ≠ [] →
      lowerStr (trimStartDots (rustTrim x)) ∉ (items.foldl applyIgnoreItem st).2 := by
  intro items
  induction items with
  | nil => intro st hx; simp at hx
  | cons i it ih =>
    intro st hx hc
    rw [List.foldl_cons]
    rw [List.mem_cons] at hx
    cases hx with
    | inl hxi =>
      subst hxi
      intro hmem
      have hin := ignoreFold_exts_sub it _ hmem
      rw [applyIgnore_unfold st hc] at hin
      exact (hsRemove_mem.mp hin).2 rfl
    | inr hxit => exact ih _ hxit hc

theorem includeFold_mono {y : Str} :
    ∀ (items : List Str) (ex : List Str), y ∈ ex →
      y ∈ items.foldl applyIncludeItem ex := by
  intro items
  induction items with
  | nil => intro ex hy; simpa using hy
  | cons i it ih =>
    intro ex hy
    rw [List.foldl_cons]
    apply ih
    simp only [applyIncludeItem]
    split
    · exact hy
    · split
      · exact hy
      · exact hsInsert_mem.mpr (Or.inl hy)

theorem includeFold_insert {x : Str} :
    ∀ (items : List Str) (ex : List Str), x ∈ items →
      lowerStr (trimStartDots (rustTrim x)) ≠ [] →
      lowerStr (trimStartDots (rustTrim x)) ∈ items.foldl applyIncludeItem ex := by
  intro items
  induction items with
  | nil => intro ex hx; simp at hx
  | cons i it ih =>
    intro ex hx hc
    rw [List.foldl_cons]
    rw [List.mem_cons] at hx
    cases hx with
    | inl hxi =>
      subst hxi
      apply includeFold_mono
      rw [applyInclude_unfold ex hc]
      exact hsInsert_mem.mpr (Or.inr rfl)
    | inr hxit => exact ih _ hxit hc

theorem includeFold_no_new {c : Str} :
    ∀ (items : List Str) (ex : List Str),
      (∀ y ∈ items, lowerStr (trimStartDots (rustTrim y)) ≠ c) → c ∉ ex →
      c ∉ items.foldl applyIncludeItem ex := by
  intro items
  induction items with
  | nil => intro ex _ hce; simpa using hce
  | cons i it ih =>
    intro ex hall hce
    rw [List.foldl_cons]
    apply ih
    · intro y hy
      exact hall y (List.mem_cons_of_mem _ hy)
    · simp only [applyIncludeItem]
      split
      · exact hce
      · split
        · exact hce
        · intro hmem
          rcases hsInsert_mem.mp hmem with hmem2 | hmem2
          · exact hce hmem2
          · exact hall i (List.mem_cons_self _ _) hmem2.symm

/-- Claim C9: every `--ignore` item (trimmed, dot-stripped, lower-cased)
lands in the ignored-directory set and is removed from the allowed-extension
set; `--include` items are applied afterwards, so an extension named in both
lists is present in the allowed-extension set again while its name remains in
the ignored-directory set. -/
theorem c9_config_precedence (igs incs : List Str) (x : Str) (hx : x ∈ igs)
    (hc : lowerStr (trimStartDots (rustTrim x)) ≠ []) :
    lowerStr (trimStartDots (rustTrim x)) ∈
        (RepoProcessor.new (some igs) (some incs)).ignored_dirs ∧
    ((∀ y ∈ incs, lowerStr (trimStartDots (rustTrim y)) ≠
        lowerStr (trimStartDots (rustTrim x))) →
      lowerStr (trimStartDots (rustTrim x)) ∉
        (RepoProcessor.new (some igs) (some incs)).allowed_exts) ∧
    ((∃ y ∈ incs, lowerStr (trimStartDots (rustTrim y)) =
        lowerStr (trimStartDots (rustTrim x))) →
      lowerStr (trimStartDots (rustTrim x)) ∈
        (RepoProcessor.new (some igs) (some incs)).allowed_exts) := by
  refine ⟨?_, ?_, ?_⟩
  · show lowerStr (trimStartDots (rustTrim x)) ∈ (igs.foldl applyIgnoreItem _).1
    exact ignoreFold_dirs_insert igs _ hx hc
  · intro hnone
    show lowerStr (trimStartDots (rustTrim x)) ∉ incs.foldl applyIncludeItem _
    apply includeFold_no_new incs _ hnone
    exact ignoreFold_exts_removed igs _ hx hc
  · rintro ⟨y, hy, hyc⟩
    show lowerStr (trimStartDots (rustTrim x)) ∈ incs.foldl applyIncludeItem _
    rw [← hyc]
    exact includeFold_insert incs _ hy (by rw [hyc]; exact hc)

/-- Claim C9, witness: the extension `py`, passed both to `--ignore` (as
`.PY`) and to `--include`, remains in the ignored-directory set. -/
theorem c9_config_precedence_witness :
    lowerStr (trimStartDots (rustTrim (".PY".toList))) ∈
      (RepoProcessor.new (some [(".PY".toList)]) (some [("py".toList)])).ignored_dirs :=
  (c9_config_precedence [(".PY".toList)] [("py".toList)] (".PY".toList)
    (by decide) (by decide)).1

/-! ### Claim C1: the large-file gate -/

theorem selectedPathsOf_cons {l0 : Str × Nat} {lt : List (Str × Nat)} {s0 : Bool}
    {st : List Bool} :
    selectedPathsOf (l0 :: lt) (s0 :: st) =
      if s0 then l0.1 :: selectedPathsOf lt st else selectedPathsOf lt st := by
  cases s0 <;> simp [selectedPathsOf]

theorem zip_fst_mem {α β : Type} {e : α × β} :
    ∀ {l1 : List α} {l2 : List β}, e ∈ List.zip l1 l2 → e.1 ∈ l1 := by
  intro l1
  induction l1 with
  | nil => intro l2 h; simp [List.zip] at h
  | cons a t ih =>
    intro l2 h
    cases l2 with
    | nil => simp [List.zip] at h
    | cons b t2 =>
      rw [List.zip_cons_cons, List.mem_cons] at h
      cases h with
      | inl h1 => subst h1; simp
      | inr h2 => exact List.mem_cons_of_mem _ (ih h2)

theorem selectedPathsOf_subset {x : Str} :
    ∀ {lt : List (Str × Nat)} {st : List Bool}, x ∈ selectedPathsOf lt st →
      x ∈ lt.map Prod.fst := by
  intro lt st hx
  simp only [selectedPathsOf, List.mem_map, List.mem_filter] at hx
  obtain ⟨e, ⟨hez, _⟩, hex⟩ := hx
  rw [List.mem_map]
  exact ⟨e.1, zip_fst_mem hez, hex⟩

theorem zip_any_false {f : Str} {lt : List (Str × Nat)} {st : List Bool}
    (h : f ∉ lt.map Prod.fst) :
    (List.zip lt st).any (fun e => e.1.1 == f && !e.2) = false := by
  rw [Bool.eq_false_iff]
  intro hany
  rw [List.any_eq_true] at hany
  obtain ⟨e, hez, he⟩ := hany
  simp only [Bool.and_eq_true, beq_iff_eq] at he
  apply h
  rw [List.mem_map]
  exact ⟨e.1, zip_fst_mem hez, he.1⟩

theorem gate_keep_eq :
    ∀ (large : List (Str × Nat)) (sel : List Bool) (f : Str),
      sel.length = large.length → (large.map Prod.fst).Nodup →
      (if large.any (fun lf => lf.1 == f) then (selectedPathsOf large sel).contains f
       else true)
        = !((large.zip sel).any (fun e => e.1.1 == f && !e.2)) := by
  intro large
  induction large with
  | nil => intro sel f _ _; simp
  | cons l0 lt ih =>
    intro sel f hlen hnodup
    cases sel with
    | nil => simp at hlen
    | cons s0 st =>
      have hlen2 : st.length = lt.length := by simpa using hlen
      have hnd : l0.1 ∉ lt.map Prod.fst ∧ (lt.map Prod.fst).Nodup := by
        simpa [List.nodup_cons] using hnodup
      by_cases hf : l0.1 = f
      · have hnotin : f ∉ lt.map Prod.fst := hf ▸ hnd.1
        have hrestsel : f ∉ selectedPathsOf lt st :=
          fun hmem => hnotin (selectedPathsOf_subset hmem)
        have hrestzip : (List.zip lt st).any (fun e => e.1.1 == f && !e.2) = false :=
          zip_any_false hnotin
        cases s0 with
        | true => simp [selectedPathsOf_cons, hf, hrestsel, hrestzip]
        | false => simp [selectedPathsOf_cons, hf, hrestsel, hrestzip]
      · have hf2 : (l0.1 == f) = false := by simp [hf]
        have hih := ih st f hlen2 hnd.2
        by_cases hangood : lt.any (fun lf => lf.1 == f) = true
        · have hih2 : (selectedPathsOf lt st).contains f =
              !((List.zip lt st).any (fun e => e.1.1 == f && !e.2)) := by
            simpa [hangood] using hih
          have hih3 : decide (f ∈ selectedPathsOf lt st) =
              !((List.zip lt st).any (fun e => e.1.1 == f && !e.2)) := by
            simpa using hih2
          have hf4 : ¬ f = l0.1 := fun hq => hf hq.symm
          cases s0 <;> simp [selectedPathsOf_cons, hf2, hangood, hf, hf4, hih3]
        · have hanb : lt.any (fun lf => lf.1 == f) = false :=
            Bool.eq_false_iff.mpr (fun hx => hangood hx)
          have hih2 : (List.zip lt st).any (fun e => e.1.1 == f && !e.2) = false := by
            rw [hanb] at hih
            simp only [Bool.false_eq_true, if_false] at hih
            simpa using hih
          simp [hf2, hanb, hih2]

theorem selectedPathsOf_all : ∀ (large : List (Str × Nat)),
    selectedPathsOf large (List.replicate large.length true) = large.map Prod.fst := by
  intro large
  induction large with
  | nil => simp [selectedPathsOf]
  | cons l0 lt ih =>
    rw [List.length_cons, List.replicate_succ, selectedPathsOf_cons]
    simp [ih]

/-- Claim C1: `prompt_large_files` returns the input list with exactly those
members removed that occur in the oversized list with a reject decision;
when the oversized list is empty, or when every decision is the default
accept, the output is the input unchanged. -/
theorem c1_large_file_gate (files : List Str) (large : List (Str × Nat)) (sel : List Bool)
    (hlen : sel.length = large.length) (hnodup : (large.map Prod.fst).Nodup) :
    prompt_large_files files large sel =
      files.filter (fun f => !((large.zip sel).any (fun e => e.1.1 == f && !e.2))) ∧
    (large = [] → prompt_large_files files large sel = files) ∧
    (sel = List.replicate large.length true →
      prompt_large_files files large sel = files) := by
  refine ⟨?_, ?_, ?_⟩
  · unfold prompt_large_files
    split
    · rename_i hemp
      have h0 : large = [] := by simpa [List.isEmpty_iff] using hemp
      subst h0
      simp
    · apply List.filter_congr
      intro f hfmem
      exact gate_keep_eq large sel f hlen hnodup
  · intro h0
    subst h0
    simp [prompt_large_files]
  · intro hsel
    subst hsel
    unfold prompt_large_files
    split
    · rfl
    · rw [List.filter_eq_self]
      intro f hf
      split
      · rename_i hany
        rw [selectedPathsOf_all]
        rw [List.any_eq_true] at hany
        obtain ⟨lf, hlf, hbeq⟩ := hany
        rw [beq_iff_eq] at hbeq
        have : f ∈ large.map Prod.fst := by
          rw [List.mem_map]
          exact ⟨lf, hlf, hbeq⟩
        simpa using this
      · rfl

/-- Claim C1, witness: with no oversized files the gate returns the input
unchanged. -/
theorem c1_large_file_gate_witness :
    prompt_large_files [("a".toList), ("b".toList)] [] [] =
      [("a".toList), ("b".toList)] :=
  (c1_large_file_gate [("a".toList), ("b".toList)] [] [] (by decide) (by decide)).2.1 rfl

/-! ### Claim C7: end-to-end binary-literal redaction -/

theorem find1_here {z g u : Str} (h : scan1 z = some (g, u)) :
    find1 (lit1 ++ z) = some ([], g, u) := by
  have hx : lit1 ++ z =
      'D' :: ('A' :: 'T' :: 'A' :: ' ' :: '=' :: ' ' :: 'b' :: '"' :: '"' :: '"' :: z) := rfl
  have hsp : stripPfx lit1
      ('D' :: ('A' :: 'T' :: 'A' :: ' ' :: '=' :: ' ' :: 'b' :: '"' :: '"' :: '"' :: z)) =
        some z := by
    have hq := stripPfx_append lit1 z
    rwa [hx] at hq
  rw [hx, find1, hsp]
  simp [h]

/-- Claim C7, counterexample: garbage that itself contains a double quote,
such as `a"b`, defeats the `[^"]*?` lazy group, so the text is left entirely
unredacted and the placeholder never appears. -/
theorem c7_counterexample :
    redact ("DATA = b\"\"\"a\"b\"\"\"".toList) = "DATA = b\"\"\"a\"b\"\"\"".toList ∧
    containsSub ph ("DATA = b\"\"\"a\"b\"\"\"".toList) = false := by decide

/-- Claim C7, amended: for garbage containing no double quote, a file whose
content is `DATA = b"""<garbage>"""` is redacted to
`DATA = b"""<binary data removed>"""`, and the produced block contains that
text verbatim, with none of the garbage remaining. -/
theorem c7_binary_literal_redaction (path g : Str) (hg : '"' ∉ g) :
    redact (lit1 ++ g ++ q3) = lit1 ++ ph ++ q3 ∧
    process_file_block path (lit1 ++ g ++ q3) =
      (banner47 ++ [nlc] ++ "--- File: ".toList ++ path ++ " ---".toList ++ [nlc] ++
        banner47 ++ [nlc] ++ [nlc]) ++
      (lit1 ++ ph ++ q3) ++
      ([nlc] ++ "--- End of File ---".toList ++ [nlc] ++ [nlc] ++ banner47 ++ [nlc]) := by
  have hsc : scan1 (g ++ q3 ++ []) = some (g, []) := scan1_of hg
  have hsc2 : scan1 (g ++ q3) = some (g, []) := by simpa using hsc
  have hf1 : find1 (lit1 ++ (g ++ q3)) = some ([], g, []) := find1_here hsc2
  have hf1b : find1 (lit1 ++ g ++ q3) = some ([], g, []) := by
    rw [List.append_assoc]
    exact hf1
  have hp1 : pat1 (lit1 ++ g ++ q3) = R1 := by
    rw [pat1_some hf1b, pat1_none (s := []) rfl]
    simp
  have hred : redact (lit1 ++ g ++ q3) = lit1 ++ ph ++ q3 := by
    unfold redact
    rw [hp1, pat2_none (s := R1) (by decide), pat3_none (s := R1) (by decide)]
    rfl
  refine ⟨hred, ?_⟩
  unfold process_file_block
  rw [hred]
  simp

/-- Claim C7, witness: quote-free garbage is fully replaced by the
placeholder. -/
theorem c7_binary_literal_redaction_witness :
    redact (lit1 ++ "garbage bytes 123".toList ++ q3) = lit1 ++ ph ++ q3 :=
  (c7_binary_literal_redaction ("f.py".toList) ("garbage bytes 123".toList) (by decide)).1

/-! ### Establishment of the redaction invariants -/

theorem occ_in_pre {p0 lit p t : Str} (hx1 : p0 ++ lit = p ++ lit ++ t) (ht : t ≠ []) :
    ∃ a, p0 = p ++ a ∧ a ≠ [] ∧ a ++ lit = lit ++ t := by
  have hlen := congrArg List.length hx1
  simp only [List.length_append] at hlen
  have htl : 0 < t.length := List.length_pos.mpr ht
  have hple : p.length ≤ p0.length := by omega
  have h3 : p0.take p.length = p := by
    have h1 : (p0 ++ lit).take p.length = p0.take p.length :=
      List.take_append_of_le_length hple
    rw [hx1, List.append_assoc] at h1
    rw [← h1]
    exact List.take_left p (lit ++ t)
  have hp0 : p0 = p ++ p0.drop p.length := by
    conv_lhs => rw [← List.take_append_drop p.length p0]
    rw [h3]
  refine ⟨p0.drop p.length, hp0, ?_, ?_⟩
  · intro hnil
    have hd := congrArg List.length hnil
    simp only [List.length_drop, List.length_nil] at hd
    omega
  · have hfull : p ++ (p0.drop p.length ++ lit) = p ++ (lit ++ t) := by
      calc p ++ (p0.drop p.length ++ lit)
          = (p ++ p0.drop p.length) ++ lit := by simp
        _ = p0 ++ lit := by rw [← hp0]
        _ = p ++ lit ++ t := hx1
        _ = p ++ (lit ++ t) := by simp
    exact List.append_cancel_left hfull

theorem straddle_facts {lit a b : Str} (hl : lit = a ++ b) (ha : a ≠ []) (hb : b ≠ []) :
    a = lit.take a.length ∧ b = lit.drop a.length ∧
      1 ≤ a.length ∧ a.length < lit.length := by
  subst hl
  refine ⟨by simp, by simp, ?_, ?_⟩
  · have := List.length_pos.mpr ha
    omega
  · have := List.length_pos.mpr hb
    simp only [List.length_append]
    omega

theorem take_one_of_append {b w r : Str} (h : w = b ++ r) (hb : b ≠ []) :
    b.take 1 = w.take 1 := by
  subst h
  rw [List.take_append_of_le_length]
  exact List.length_pos.mpr hb

theorem pat1_estab : ∀ s, P1 (pat1 s) := by
  have main : ∀ n s, s.length ≤ n → P1 (pat1 s) := by
    intro n
    induction n with
    | zero =>
      intro s hl
      have hs : s = [] := List.length_eq_zero.mp (Nat.le_zero.mp hl)
      subst hs
      rw [pat1_none (s := []) rfl]
      intro p r hpr g u hsc
      have hll := congrArg List.length hpr
      simp only [List.length_append, List.length_nil] at hll
      have : lit1.length = 11 := by decide
      omega
    | succ n ih =>
      intro s hl
      cases hfind : find1 s with
      | none =>
        rw [pat1_none hfind]
        intro p r hpr g u hsc
        rw [find1_none hfind p r hpr] at hsc
        exact absurd hsc (by simp)
      | some x =>
        obtain ⟨p0, g0, r0⟩ := x
        obtain ⟨hs, hq0⟩ := find1_some hfind
        have hrlen := find1_len hfind
        have hT : P1 (pat1 r0) := ih r0 (by omega)
        rw [pat1_some hfind]
        intro p r hpr g u hsc
        have hre : p0 ++ R1 ++ pat1 r0 = (p0 ++ lit1) ++ (ph ++ q3 ++ pat1 r0) := by
          simp [R1]
        rw [hre] at hpr
        rcases occ_split hpr with ⟨t, hx1, hx2⟩ | ⟨t, hy1, hy2⟩ |
          ⟨a, b, hlit, hane, hbne, hxa, hyb⟩
        · by_cases hteq : t = []
          · subst hteq
            have hpp0 : p0 ++ lit1 = p ++ lit1 := by simpa using hx1
            have hreq : r = ph ++ q3 ++ pat1 r0 := by simpa using hx2
            have hscan : scan1 (ph ++ q3 ++ pat1 r0) = some (ph, pat1 r0) :=
              scan1_of (by decide)
            rw [hreq, hscan] at hsc
            simp only [Option.some.injEq, Prod.mk.injEq] at hsc
            exact hsc.1.symm
          · obtain ⟨a, hp0eq, hane, hal⟩ := occ_in_pre hx1 hteq
            have hzeq : a ++ lit1 ++ g0 ++ q3 ++ r0 = lit1 ++ (t ++ g0 ++ q3 ++ r0) := by
              have h5 : a ++ lit1 ++ g0 ++ q3 ++ r0 = (a ++ lit1) ++ (g0 ++ (q3 ++ r0)) := by
                simp
              rw [h5, hal]
              simp
            have hmin := find1_min hfind p a hp0eq hane (t ++ g0 ++ q3 ++ r0) hzeq
            have hstab := scan1_stab ph (pat1 r0) hmin hq0 (by decide) (by decide)
            have hreq : r = t ++ ph ++ q3 ++ pat1 r0 := by
              rw [hx2]
              simp
            rw [hreq, hstab] at hsc
            exact absurd hsc (by simp)
        · rcases occ_split hy2 with ⟨t2, hz1, hz2⟩ | ⟨t2, hz1, hz2⟩ |
            ⟨a, b, hlit, hane, hbne, hxa, hyb⟩
          · exfalso
            have hcs : containsSub lit1 (ph ++ q3) = true :=
              containsSub_iff.mpr ⟨t, t2, hz1⟩
            exact absurd hcs (by decide)
          · exact hT t2 r hz2 g u hsc
          · exfalso
            obtain ⟨hta, _htb, hk1, hk2⟩ := straddle_facts hlit hane hbne
            have hends : endsWith a (ph ++ q3) = true := endsWith_iff.mpr ⟨t, hxa⟩
            have hdec : ∀ k, 1 ≤ k → k < 11 → endsWith (lit1.take k) (ph ++ q3) = false := by
              decide
            have hk2b : a.length < 11 := by
              have : lit1.length = 11 := by decide
              omega
            rw [hta] at hends
            rw [hdec a.length hk1 hk2b] at hends
            exact absurd hends (by simp)
        · exfalso
          obtain ⟨_hta, htb, hk1, hk2⟩ := straddle_facts hlit hane hbne
          have hone : b.take 1 = (ph ++ q3 ++ pat1 r0).take 1 :=
            take_one_of_append hyb hbne
          have hone2 : (ph ++ q3 ++ pat1 r0).take 1 = ['<'] := rfl
          have hdec : ∀ k, 1 ≤ k → k < 11 → (lit1.drop k).take 1 ≠ ['<'] := by decide
          have hk1b : 1 ≤ a.length := hk1
          have hk2b : a.length < 11 := by
            have : lit1.length = 11 := by decide
            omega
          apply hdec a.length hk1b hk2b
          rw [← htb, hone, hone2]
  intro s
  exact main s.length s (le_refl _)

theorem pat2_estab : ∀ s, P2 (pat2 s) := by
  have main : ∀ n s, s.length ≤ n → P2 (pat2 s) := by
    intro n
    induction n with
    | zero =>
      intro s hl
      have hs : s = [] := List.length_eq_zero.mp (Nat.le_zero.mp hl)
      subst hs
      rw [pat2_none (s := []) rfl]
      intro p r hpr C u hsc
      have hll := congrArg List.length hpr
      simp only [List.length_append, List.length_nil] at hll
      have : lit2.length = 10 := by decide
      omega
    | succ n ih =>
      intro s hl
      cases hfind : find2 s with
      | none =>
        rw [pat2_none hfind]
        intro p r hpr C u hsc
        rw [find2_none hfind p r hpr] at hsc
        exact absurd hsc (by simp)
      | some x =>
        obtain ⟨p0, C0, r0⟩ := x
        obtain ⟨hs, hq0⟩ := find2_some hfind
        have hrlen := find2_len hfind
        have hT : P2 (pat2 r0) := ih r0 (by omega)
        rw [pat2_some hfind]
        intro p r hpr C u hsc
        have hre : p0 ++ R2 ++ pat2 r0 = (p0 ++ lit2) ++ (phq ++ [')'] ++ pat2 r0) := by
          simp [R2]
        rw [hre] at hpr
        rcases occ_split hpr with ⟨t, hx1, hx2⟩ | ⟨t, hy1, hy2⟩ |
          ⟨a, b, hlit, hane, hbne, hxa, hyb⟩
        · by_cases hteq : t = []
          · subst hteq
            have hreq : r = phq ++ ')' :: pat2 r0 := by
              rw [hx2]
              simp
            have hscan : scanTo ')' (phq ++ ')' :: pat2 r0) = some (phq, pat2 r0) :=
              scanTo_of (by decide)
            rw [hreq, hscan] at hsc
            simp only [Option.some.injEq, Prod.mk.injEq] at hsc
            exact hsc.1.symm
          · exfalso
            obtain ⟨a, hp0eq, hane, hal⟩ := occ_in_pre hx1 hteq
            have hzeq : a ++ lit2 ++ C0 ++ ')' :: r0 = lit2 ++ (t ++ C0 ++ ')' :: r0) := by
              have h5 : a ++ lit2 ++ C0 ++ ')' :: r0 = (a ++ lit2) ++ (C0 ++ (')' :: r0)) := by
                simp
              rw [h5, hal]
              simp
            have hmin := find2_min hfind p a hp0eq hane (t ++ C0 ++ ')' :: r0) hzeq
            rw [scanTo_none_iff] at hmin
            exact hmin (by simp)
        · rcases occ_split hy2 with ⟨t2, hz1, hz2⟩ | ⟨t2, hz1, hz2⟩ |
            ⟨a, b, hlit, hane, hbne, hxa, hyb⟩
          · exfalso
            have hcs : containsSub lit2 (phq ++ [')']) = true :=
              containsSub_iff.mpr ⟨t, t2, hz1⟩
            exact absurd hcs (by decide)
          · exact hT t2 r hz2 C u hsc
          · exfalso
            obtain ⟨hta, _htb, hk1, hk2⟩ := straddle_facts hlit hane hbne
            have hends : endsWith a (phq ++ [')']) = true := endsWith_iff.mpr ⟨t, hxa⟩
            have hdec : ∀ k, 1 ≤ k → k < 10 →
                endsWith (lit2.take k) (phq ++ [')']) = false := by decide
            have hk2b : a.length < 10 := by
              have : lit2.length = 10 := by decide
              omega
            rw [hta] at hends
            rw [hdec a.length hk1 hk2b] at hends
            exact absurd hends (by simp)
        · exfalso
          obtain ⟨_hta, htb, hk1, hk2⟩ := straddle_facts hlit hane hbne
          have hone : b.take 1 = (phq ++ [')'] ++ pat2 r0).take 1 :=
            take_one_of_append hyb hbne
          have hone2 : (phq ++ [')'] ++ pat2 r0).take 1 = ['"'] := rfl
          have hdec : ∀ k, 1 ≤ k → k < 10 → (lit2.drop k).take 1 ≠ ['"'] := by decide
          have hk2b : a.length < 10 := by
            have : lit2.length = 10 := by decide
            omega
          apply hdec a.length hk1 hk2b
          rw [← htb, hone, hone2]
  intro s
  exact main s.length s (le_refl _)

theorem getLast?_app {l1 l2 : Str} (h : l2 ≠ []) : (l1 ++ l2).getLast? = l2.getLast? := by
  induction l1 with
  | nil => rfl
  | cons c l ih =>
    rw [List.cons_append]
    cases hl : l ++ l2 with
    | nil => exact absurd (List.append_eq_nil.mp hl).2 h
    | cons b lb =>
      rw [List.getLast?_cons_cons, ← hl]
      exact ih

theorem getLast?_concat_ex {t : Str} {c : Char} (h : t.getLast? = some c) :
    ∃ t1, t = t1 ++ [c] := by
  induction t with
  | nil => simp [List.getLast?] at h
  | cons a l ih =>
    cases l with
    | nil =>
      simp [List.getLast?] at h
      exact ⟨[], by simp [h]⟩
    | cons b lb =>
      rw [List.getLast?_cons_cons] at h
      obtain ⟨t1, ht1⟩ := ih h
      exact ⟨a :: t1, by simp [ht1]⟩

theorem pat3_estab : ∀ s, P3 (pat3 s) := by
  have main : ∀ n s, s.length ≤ n → P3 (pat3 s) := by
    intro n
    induction n with
    | zero =>
      intro s hl
      have hs : s = [] := List.length_eq_zero.mp (Nat.le_zero.mp hl)
      subst hs
      rw [pat3_none (s := []) rfl]
      intro p r hpr A B hAB hend C u hsc
      have hll := congrArg List.length hpr
      simp only [List.length_append, List.length_nil] at hll
      have : lit3.length = 7 := by decide
      omega
    | succ n ih =>
      intro s hl
      cases hfind : find3 s with
      | none =>
        rw [pat3_none hfind]
        intro p r hpr A B hAB hend C u hsc
        rw [find3_none hfind p r hpr A B hAB hend] at hsc
        exact absurd hsc (by simp)
      | some x =>
        obtain ⟨p0, A0, C0, r0⟩ := x
        obtain ⟨hs, hA0, hE0, hC0⟩ := find3_some hfind
        have hrlen := find3_len hfind
        have hT : P3 (pat3 r0) := ih r0 (by omega)
        rw [pat3_some hfind]
        intro p r hpr A B hAB hend C u hsc
        have hre : p0 ++ R3 A0 ++ pat3 r0 =
            (p0 ++ (lit3 ++ A0 ++ ['('])) ++ (phq ++ [')'] ++ pat3 r0) := by
          simp [R3]
        rw [hre] at hpr
        rcases occ_split hpr with ⟨t, hx1, hx2⟩ | ⟨t, _hy1, hy2⟩ |
          ⟨a, b, hlit, hane, hbne, hxa, hyb⟩
        · have hbefore : ∀ p2, p0 = p ++ p2 → p2 ≠ [] → False := by
            intro p2 hp2 hp2ne
            have h6 : p ++ (p2 ++ (lit3 ++ A0 ++ ['('])) = p ++ (lit3 ++ t) := by
              calc p ++ (p2 ++ (lit3 ++ A0 ++ ['(']))
                  = p0 ++ (lit3 ++ A0 ++ ['(']) := by rw [hp2]; simp
                _ = p ++ lit3 ++ t := hx1
                _ = p ++ (lit3 ++ t) := by simp
            have hcanc : p2 ++ (lit3 ++ A0 ++ ['(']) = lit3 ++ t :=
              List.append_cancel_left h6
            have hparen : '(' ∈ t := by
              have hm : '(' ∈ p2 ++ (lit3 ++ A0 ++ ['(']) := by simp
              rw [hcanc] at hm
              rcases List.mem_append.mp hm with hm1 | hm2
              · exact absurd hm1 (by decide)
              · exact hm2
            cases hsp : scanTo '(' t with
            | none => exact (scanTo_none_iff.mp hsp) hparen
            | some pr =>
              obtain ⟨a1, b1⟩ := pr
              obtain ⟨ht, hna1⟩ := scanTo_some hsp
              have hreq : r = a1 ++ '(' :: (b1 ++ (phq ++ [')'] ++ pat3 r0)) := by
                rw [hx2, ht]
                simp
              have hscr : scanTo '(' r = some (a1, b1 ++ (phq ++ [')'] ++ pat3 r0)) := by
                rw [hreq]
                exact scanTo_of hna1
              rw [hscr] at hAB
              simp only [Option.some.injEq, Prod.mk.injEq] at hAB
              have hend1 : endsWith dec6 a1 = true := by
                rw [hAB.1]
                exact hend
              have hzeq : p2 ++ lit3 ++ A0 ++ '(' :: (C0 ++ ')' :: r0) =
                  lit3 ++ (t ++ (C0 ++ ')' :: r0)) := by
                have h9 : p2 ++ lit3 ++ A0 ++ '(' :: (C0 ++ ')' :: r0) =
                    (p2 ++ (lit3 ++ A0 ++ ['('])) ++ (C0 ++ ')' :: r0) := by
                  simp
                rw [h9, hcanc]
                simp
              have hscz : scanTo '(' (t ++ (C0 ++ ')' :: r0)) =
                  some (a1, b1 ++ (C0 ++ ')' :: r0)) := by
                have h10 : t ++ (C0 ++ ')' :: r0) = a1 ++ '(' :: (b1 ++ (C0 ++ ')' :: r0)) := by
                  rw [ht]
                  simp
                rw [h10]
                exact scanTo_of hna1
              have hmin := find3_min hfind p p2 hp2 hp2ne (t ++ (C0 ++ ')' :: r0)) hzeq
                a1 (b1 ++ (C0 ++ ')' :: r0)) hscz hend1
              rw [scanTo_none_iff] at hmin
              exact hmin (by simp)
          have hafter : ∀ d, p = p0 ++ d → C = phq := by
            intro d hpd
            have h6 : p0 ++ (lit3 ++ A0 ++ ['(']) = p0 ++ (d ++ (lit3 ++ t)) := by
              rw [hx1, hpd]
              simp
            have hcanc : lit3 ++ A0 ++ ['('] = d ++ (lit3 ++ t) :=
              List.append_cancel_left h6
            have hgl : ((lit3 ++ A0 ++ ['(']) : Str).getLast? = some '(' :=
              List.getLast?_concat _
            have htne : t ≠ [] := by
              intro ht0
              rw [ht0, List.append_nil] at hcanc
              rw [hcanc, getLast?_app (by decide : (lit3 : Str) ≠ [])] at hgl
              have hld : (lit3 : Str).getLast? = some '.' := by decide
              rw [hld] at hgl
              exact absurd hgl (by decide)
            have h10 : (lit3 ++ t : Str) ≠ [] := fun hh => htne (List.append_eq_nil.mp hh).2
            have htl : t.getLast? = some '(' := by
              rw [hcanc, getLast?_app h10, getLast?_app htne] at hgl
              exact hgl
            obtain ⟨t1, ht1⟩ := getLast?_concat_ex htl
            have hnt1 : '(' ∉ t1 := by
              intro hmem
              have h8 : (lit3 ++ A0) ++ ['('] = (d ++ lit3 ++ t1) ++ ['('] := by
                rw [hcanc, ht1]
                simp
              have h9 : (lit3 ++ A0 : Str) = d ++ lit3 ++ t1 :=
                List.append_cancel_right h8
              have hm : '(' ∈ lit3 ++ A0 := by
                rw [h9]
                simp [hmem]
              rcases List.mem_append.mp hm with hm1 | hm2
              · exact absurd hm1 (by decide)
              · exact hA0 hm2
            have hreq : r = t1 ++ '(' :: (phq ++ ')' :: pat3 r0) := by
              rw [hx2, ht1]
              simp
            have hscr : scanTo '(' r = some (t1, phq ++ ')' :: pat3 r0) := by
              rw [hreq]
              exact scanTo_of hnt1
            rw [hscr] at hAB
            simp only [Option.some.injEq, Prod.mk.injEq] at hAB
            have hscB : scanTo ')' B = some (phq, pat3 r0) := by
              rw [← hAB.2]
              exact scanTo_of (by decide)
            rw [hscB] at hsc
            simp only [Option.some.injEq, Prod.mk.injEq] at hsc
            exact hsc.1.symm
          rcases List.append_eq_append_iff.mp hx1 with ⟨a2, ha1, _ha2⟩ | ⟨c2, hc1, _hc2⟩
          · rcases List.append_eq_append_iff.mp ha1 with ⟨e, he1, _he2⟩ | ⟨e, he1, _he2⟩
            · by_cases heq : e = []
              · exact hafter [] (by rw [he1, heq]; simp)
              · exact (hbefore e he1 heq).elim
            · exact hafter e he1
          · exact (hbefore (lit3 ++ c2) (by rw [hc1]; simp)
              (fun hh => absurd (List.append_eq_nil.mp hh).1 (by decide))).elim
        · rcases occ_split hy2 with ⟨t2, hz1, _hz2⟩ | ⟨t2, _hz1, hz2⟩ |
            ⟨a, b, hlit, hane, hbne, hxa, hyb⟩
          · exfalso
            have hcs : containsSub lit3 (phq ++ [')']) = true :=
              containsSub_iff.mpr ⟨t, t2, hz1⟩
            exact absurd hcs (by decide)
          · exact hT t2 r hz2 A B hAB hend C u hsc
          · exfalso
            obtain ⟨hta, _htb, hk1, hk2⟩ := straddle_facts hlit hane hbne
            have hends : endsWith a (phq ++ [')']) = true := endsWith_iff.mpr ⟨t, hxa⟩
            have hdec : ∀ k, 1 ≤ k → k < 7 →
                endsWith (lit3.take k) (phq ++ [')']) = false := by decide
            have hk2b : a.length < 7 := by
              have : lit3.length = 7 := by decide
              omega
            rw [hta] at hends
            rw [hdec a.length hk1 hk2b] at hends
            exact absurd hends (by simp)
        · exfalso
          obtain ⟨_hta, htb, hk1, hk2⟩ := straddle_facts hlit hane hbne
          have hone : b.take 1 = (phq ++ [')'] ++ pat3 r0).take 1 :=
            take_one_of_append hyb hbne
          have hone2 : (phq ++ [')'] ++ pat3 r0).take 1 = ['"'] := rfl
          have hdec : ∀ k, 1 ≤ k → k < 7 → (lit3.drop k).take 1 ≠ ['"'] := by decide
          have hk2b : a.length < 7 := by
            have : lit3.length = 7 := by decide
            omega
          apply hdec a.length hk1 hk2b
          rw [← htb, hone, hone2]
  intro s
  exact main s.length s (le_refl _)

theorem take_pfx_of_append {b w r : Str} (k : Nat) (h : w = b ++ r) (hk : k ≤ b.length) :
    b.take k = w.take k := by
  subst h
  rw [List.take_append_of_le_length hk]

theorem pat2_pres_P1 : ∀ s, P1 s → P1 (pat2 s) := by
  have main : ∀ n s, s.length ≤ n → P1 s → P1 (pat2 s) := by
    intro n
    induction n with
    | zero =>
      intro s hl hP
      have hs : s = [] := List.length_eq_zero.mp (Nat.le_zero.mp hl)
      subst hs
      rw [pat2_none (s := []) rfl]
      exact hP
    | succ n ih =>
      intro s hl hP
      cases hfind : find2 s with
      | none =>
        rw [pat2_none hfind]
        exact hP
      | some x =>
        obtain ⟨p0, C0, r0⟩ := x
        obtain ⟨hs, hq0⟩ := find2_some hfind
        have hrlen := find2_len hfind
        have hsuf : s = (p0 ++ lit2 ++ C0 ++ [')']) ++ r0 := by
          rw [hs]
          simp
        have hPr0 : P1 r0 := P1_suffix (by rw [← hsuf]; exact hP)
        have hT : P1 (pat2 r0) := ih r0 (by omega) hPr0
        rw [pat2_some hfind]
        intro p r hpr g u hsc
        have hre : p0 ++ R2 ++ pat2 r0 = p0 ++ ((lit2 ++ phq ++ [')']) ++ pat2 r0) := by
          simp [R2]
        rw [hre] at hpr
        rcases occ_split hpr with ⟨t, hx1, hx2⟩ | ⟨t, _hy1, hy2⟩ |
          ⟨a, b, hlit, hane, hbne, hxa, hyb⟩
        · obtain ⟨hr, hgq⟩ := scan1_some hsc
          rw [hx2] at hr
          rcases occ_split hr with ⟨t2, hm1, _hm2⟩ | ⟨t2, hm1, hm2⟩ |
            ⟨a, b, hq3, hane, hbne, hxa, hyb⟩
          · have hsz : s = p ++ lit1 ++ (t ++ (lit2 ++ C0 ++ ')' :: r0)) := by
              rw [hs, hx1]
              simp
            have hzq : t ++ (lit2 ++ C0 ++ ')' :: r0) =
                g ++ q3 ++ (t2 ++ (lit2 ++ C0 ++ ')' :: r0)) := by
              rw [hm1]
              simp
            have hscan : scan1 (t ++ (lit2 ++ C0 ++ ')' :: r0)) =
                some (g, t2 ++ (lit2 ++ C0 ++ ')' :: r0)) := by
              rw [hzq]
              exact scan1_of hgq
            exact hP p (t ++ (lit2 ++ C0 ++ ')' :: r0)) hsz g _ hscan
          · exfalso
            have ht2 : '"' ∉ t2 := fun hm => hgq (by rw [hm1]; simp [hm])
            rcases occ_split hm2 with ⟨t3, hn1, _hn2⟩ | ⟨t3, hn1, _hn2⟩ |
              ⟨a, b, hq3, hane, hbne, hxa, hyb⟩
            · have hcs : containsSub q3 (lit2 ++ phq ++ [')']) = true :=
                containsSub_iff.mpr ⟨t2, t3, hn1⟩
              exact absurd hcs (by decide)
            · apply ht2
              rw [hn1]
              have hw : '"' ∈ phq := by decide
              simp [hw]
            · obtain ⟨hta, _htb, hk1, hk2⟩ := straddle_facts hq3 hane hbne
              have hends : endsWith a (lit2 ++ phq ++ [')']) = true :=
                endsWith_iff.mpr ⟨t2, hxa⟩
              have hdec : ∀ k, 1 ≤ k → k < 3 →
                  endsWith (q3.take k) (lit2 ++ phq ++ [')']) = false := by decide
              have hk2b : a.length < 3 := by
                have : q3.length = 3 := by decide
                omega
              rw [hta, hdec a.length hk1 hk2b] at hends
              exact absurd hends (by simp)
          · exfalso
            obtain ⟨_hta, htb, hk1, hk2⟩ := straddle_facts hq3 hane hbne
            have hone : b.take 1 = ((lit2 ++ phq ++ [')']) ++ pat2 r0).take 1 :=
              take_one_of_append hyb hbne
            have hone2 : ((lit2 ++ phq ++ [')']) ++ pat2 r0).take 1 = ['b'] := rfl
            have hdec : ∀ k, 1 ≤ k → k < 3 → (q3.drop k).take 1 ≠ ['b'] := by decide
            have hk2b : a.length < 3 := by
              have : q3.length = 3 := by decide
              omega
            apply hdec a.length hk1 hk2b
            rw [← htb, hone, hone2]
        · rcases occ_split hy2 with ⟨t2, hz1, _hz2⟩ | ⟨t2, _hz1, hz2⟩ |
            ⟨a, b, hlit, hane, hbne, hxa, hyb⟩
          · exfalso
            have hcs : containsSub lit1 (lit2 ++ phq ++ [')']) = true :=
              containsSub_iff.mpr ⟨t, t2, hz1⟩
            exact absurd hcs (by decide)
          · exact hT t2 r hz2 g u hsc
          · exfalso
            obtain ⟨hta, _htb, hk1, hk2⟩ := straddle_facts hlit hane hbne
            have hends : endsWith a (lit2 ++ phq ++ [')']) = true :=
              endsWith_iff.mpr ⟨t, hxa⟩
            have hdec : ∀ k, 1 ≤ k → k < 11 →
                endsWith (lit1.take k) (lit2 ++ phq ++ [')']) = false := by decide
            have hk2b : a.length < 11 := by
              have : lit1.length = 11 := by decide
              omega
            rw [hta, hdec a.length hk1 hk2b] at hends
            exact absurd hends (by simp)
        · exfalso
          obtain ⟨_hta, htb, hk1, hk2⟩ := straddle_facts hlit hane hbne
          have hone : b.take 1 = ((lit2 ++ phq ++ [')']) ++ pat2 r0).take 1 :=
            take_one_of_append hyb hbne
          have hone2 : ((lit2 ++ phq ++ [')']) ++ pat2 r0).take 1 = ['b'] := rfl
          have hk2b : a.length < 11 := by
            have : lit1.length = 11 := by decide
            omega
          by_cases h7 : a.length = 7
          · have hblen : 2 ≤ b.length := by
              rw [htb, h7]
              decide
            have htwo : b.take 2 = ((lit2 ++ phq ++ [')']) ++ pat2 r0).take 2 :=
              take_pfx_of_append 2 hyb hblen
            have htwo2 : ((lit2 ++ phq ++ [')']) ++ pat2 r0).take 2 = ['b', '8'] := rfl
            have hC : ((lit1.drop 7).take 2 : Str) = ['b', '8'] := by
              rw [← h7, ← htb, htwo, htwo2]
            exact absurd hC (by decide)
          · have hd1 : ∀ k, 1 ≤ k → k < 11 → k ≠ 7 → (lit1.drop k).take 1 ≠ ['b'] := by
              decide
            have hC : (b.take 1 : Str) = ['b'] := by rw [hone, hone2]
            rw [htb] at hC
            exact absurd hC (hd1 a.length hk1 hk2b h7)
  intro s
  exact main s.length s (le_refl _)

theorem last_of_app {w p a : Str} (hw : w.getLast? = some '(') (h : w = p ++ a)
    (ha : a ≠ []) : a.getLast? = some '(' := by
  rw [h, getLast?_app ha] at hw
  exact hw

theorem pat3_pres_P1 : ∀ s, P1 s → P1 (pat3 s) := by
  have main : ∀ n s, s.length ≤ n → P1 s → P1 (pat3 s) := by
    intro n
    induction n with
    | zero =>
      intro s hl hP
      have hs : s = [] := List.length_eq_zero.mp (Nat.le_zero.mp hl)
      subst hs
      rw [pat3_none (s := []) rfl]
      exact hP
    | succ n ih =>
      intro s hl hP
      cases hfind : find3 s with
      | none =>
        rw [pat3_none hfind]
        exact hP
      | some x =>
        obtain ⟨p0, A0, C0, r0⟩ := x
        obtain ⟨hs, hA0, hE0, hC0⟩ := find3_some hfind
        have hrlen := find3_len hfind
        have hsuf : s = (p0 ++ lit3 ++ A0 ++ ['('] ++ C0 ++ [')']) ++ r0 := by
          rw [hs]
          simp
        have hPr0 : P1 r0 := P1_suffix (by rw [← hsuf]; exact hP)
        have hT : P1 (pat3 r0) := ih r0 (by omega) hPr0
        have hsQ : s = (p0 ++ (lit3 ++ A0 ++ ['('])) ++ (C0 ++ ')' :: r0) := by
          rw [hs]
          simp
        have hQgroup : p0 ++ (lit3 ++ A0 ++ ['(']) = (p0 ++ (lit3 ++ A0)) ++ ['('] := by
          simp
        have hQlast : (p0 ++ (lit3 ++ A0 ++ ['(']) : Str).getLast? = some '(' := by
          rw [hQgroup]
          exact List.getLast?_concat _
        rw [pat3_some hfind]
        intro p r hpr g u hsc
        have hre : p0 ++ R3 A0 ++ pat3 r0 =
            (p0 ++ (lit3 ++ A0 ++ ['('])) ++ (phq ++ [')'] ++ pat3 r0) := by
          simp [R3]
        rw [hre] at hpr
        rcases occ_split hpr with ⟨t, hx1, hx2⟩ | ⟨t, _hy1, hy2⟩ |
          ⟨a, b, hlit, hane, hbne, hxa, hyb⟩
        · obtain ⟨hr, hgq⟩ := scan1_some hsc
          rw [hx2] at hr
          rcases occ_split hr with ⟨t2, hm1, _hm2⟩ | ⟨t2, hm1, hm2⟩ |
            ⟨a, b, hq3, hane, hbne, hxa, hyb⟩
          · have hsz : s = p ++ lit1 ++ (t ++ (C0 ++ ')' :: r0)) := by
              rw [hsQ, hx1]
              simp
            have hzq : t ++ (C0 ++ ')' :: r0) = g ++ q3 ++ (t2 ++ (C0 ++ ')' :: r0)) := by
              rw [hm1]
              simp
            have hscan : scan1 (t ++ (C0 ++ ')' :: r0)) =
                some (g, t2 ++ (C0 ++ ')' :: r0)) := by
              rw [hzq]
              exact scan1_of hgq
            exact hP p (t ++ (C0 ++ ')' :: r0)) hsz g _ hscan
          · exfalso
            have ht2 : '"' ∉ t2 := fun hm => hgq (by rw [hm1]; simp [hm])
            rcases occ_split hm2 with ⟨t3, hn1, _hn2⟩ | ⟨t3, hn1, _hn2⟩ |
              ⟨a, b, hq3, hane, hbne, hxa, hyb⟩
            · have hcs : containsSub q3 (phq ++ [')']) = true :=
                containsSub_iff.mpr ⟨t2, t3, hn1⟩
              exact absurd hcs (by decide)
            · apply ht2
              rw [hn1]
              have hw : '"' ∈ phq := by decide
              simp [hw]
            · obtain ⟨hta, _htb, hk1, hk2⟩ := straddle_facts hq3 hane hbne
              have hends : endsWith a (phq ++ [')']) = true :=
                endsWith_iff.mpr ⟨t2, hxa⟩
              have hdec : ∀ k, 1 ≤ k → k < 3 →
                  endsWith (q3.take k) (phq ++ [')']) = false := by decide
              have hk2b : a.length < 3 := by
                have : q3.length = 3 := by decide
                omega
              rw [hta, hdec a.length hk1 hk2b] at hends
              exact absurd hends (by simp)
          · exfalso
            obtain ⟨hta, _htb, hk1, hk2⟩ := straddle_facts hq3 hane hbne
            have htne : t ≠ [] := by
              intro hh
              rw [hh] at hxa
              exact hane (List.append_eq_nil.mp hxa.symm).2
            have htl : t.getLast? = some '(' := last_of_app hQlast hx1 htne
            have hal : a.getLast? = some '(' := last_of_app htl hxa hane
            have hdec : ∀ k, 1 ≤ k → k < 3 → (q3.take k).getLast? ≠ some '(' := by decide
            have hk2b : a.length < 3 := by
              have : q3.length = 3 := by decide
              omega
            rw [hta] at hal
            exact absurd hal (hdec a.length hk1 hk2b)
        · rcases occ_split hy2 with ⟨t2, hz1, _hz2⟩ | ⟨t2, _hz1, hz2⟩ |
            ⟨a, b, hlit, hane, hbne, hxa, hyb⟩
          · exfalso
            have hcs : containsSub lit1 (phq ++ [')']) = true :=
              containsSub_iff.mpr ⟨t, t2, hz1⟩
            exact absurd hcs (by decide)
          · exact hT t2 r hz2 g u hsc
          · exfalso
            obtain ⟨hta, _htb, hk1, hk2⟩ := straddle_facts hlit hane hbne
            have hends : endsWith a (phq ++ [')']) = true := endsWith_iff.mpr ⟨t, hxa⟩
            have hdec : ∀ k, 1 ≤ k → k < 11 →
                endsWith (lit1.take k) (phq ++ [')']) = false := by decide
            have hk2b : a.length < 11 := by
              have : lit1.length = 11 := by decide
              omega
            rw [hta, hdec a.length hk1 hk2b] at hends
            exact absurd hends (by simp)
        · exfalso
          obtain ⟨hta, _htb, hk1, hk2⟩ := straddle_facts hlit hane hbne
          have hal : a.getLast? = some '(' := last_of_app hQlast hxa hane
          have hdec : ∀ k, 1 ≤ k → k < 11 → (lit1.take k).getLast? ≠ some '(' := by decide
          have hk2b : a.length < 11 := by
            have : lit1.length = 11 := by decide
            omega
          rw [hta] at hal
          exact absurd hal (hdec a.length hk1 hk2b)
  intro s
  exact main s.length s (le_refl _)

theorem pat3_pres_P2 : ∀ s, P2 s → P2 (pat3 s) := by
  have main : ∀ n s, s.length ≤ n → P2 s → P2 (pat3 s) := by
    intro n
    induction n with
    | zero =>
      intro s hl hP
      have hs : s = [] := List.length_eq_zero.mp (Nat.le_zero.mp hl)
      subst hs
      rw [pat3_none (s := []) rfl]
      exact hP
    | succ n ih =>
      intro s hl hP
      cases hfind : find3 s with
      | none =>
        rw [pat3_none hfind]
        exact hP
      | some x =>
        obtain ⟨p0, A0, C0, r0⟩ := x
        obtain ⟨hs, hA0, hE0, hC0⟩ := find3_some hfind
        have hrlen := find3_len hfind
        have hsuf : s = (p0 ++ lit3 ++ A0 ++ ['('] ++ C0 ++ [')']) ++ r0 := by
          rw [hs]
          simp
        have hPr0 : P2 r0 := P2_suffix (by rw [← hsuf]; exact hP)
        have hT : P2 (pat3 r0) := ih r0 (by omega) hPr0
        have hsQ : s = (p0 ++ (lit3 ++ A0 ++ ['('])) ++ (C0 ++ ')' :: r0) := by
          rw [hs]
          simp
        have hQgroup : p0 ++ (lit3 ++ A0 ++ ['(']) = (p0 ++ (lit3 ++ A0)) ++ ['('] := by
          simp
        have hQlast : (p0 ++ (lit3 ++ A0 ++ ['(']) : Str).getLast? = some '(' := by
          rw [hQgroup]
          exact List.getLast?_concat _
        rw [pat3_some hfind]
        intro p r hpr C u hsc
        have hre : p0 ++ R3 A0 ++ pat3 r0 =
            (p0 ++ (lit3 ++ A0 ++ ['('])) ++ (phq ++ [')'] ++ pat3 r0) := by
          simp [R3]
        rw [hre] at hpr
        rcases occ_split hpr with ⟨t, hx1, hx2⟩ | ⟨t, _hy1, hy2⟩ |
          ⟨a, b, hlit, hane, hbne, hxa, hyb⟩
        · cases hsp : scanTo ')' t with
          | some pr =>
            obtain ⟨c1, d1⟩ := pr
            obtain ⟨ht, hnc1⟩ := scanTo_some hsp
            have hreq : r = c1 ++ ')' :: (d1 ++ (phq ++ [')'] ++ pat3 r0)) := by
              rw [hx2, ht]
              simp
            have hscr : scanTo ')' r = some (c1, d1 ++ (phq ++ [')'] ++ pat3 r0)) := by
              rw [hreq]
              exact scanTo_of hnc1
            rw [hscr] at hsc
            simp only [Option.some.injEq, Prod.mk.injEq] at hsc
            have hsz : s = p ++ lit2 ++ (t ++ (C0 ++ ')' :: r0)) := by
              rw [hsQ, hx1]
              simp
            have hzq : t ++ (C0 ++ ')' :: r0) = c1 ++ ')' :: (d1 ++ (C0 ++ ')' :: r0)) := by
              rw [ht]
              simp
            have hscan : scanTo ')' (t ++ (C0 ++ ')' :: r0)) =
                some (c1, d1 ++ (C0 ++ ')' :: r0)) := by
              rw [hzq]
              exact scanTo_of hnc1
            have hc1 : c1 = phq := hP p (t ++ (C0 ++ ')' :: r0)) hsz c1 _ hscan
            rw [← hsc.1, hc1]
          | none =>
            have hnt : ')' ∉ t := scanTo_none_iff.mp hsp
            by_cases hte : t = []
            · have hreq : r = phq ++ ')' :: pat3 r0 := by
                rw [hx2, hte]
                simp
              have hscr : scanTo ')' r = some (phq, pat3 r0) := by
                rw [hreq]
                exact scanTo_of (by decide)
              rw [hscr] at hsc
              simp only [Option.some.injEq, Prod.mk.injEq] at hsc
              exact hsc.1.symm
            · exfalso
              have hn2 : ')' ∉ t ++ C0 := by
                intro hm
                rcases List.mem_append.mp hm with h | h
                · exact hnt h
                · exact hC0 h
              have hzq : t ++ (C0 ++ ')' :: r0) = (t ++ C0) ++ ')' :: r0 := by simp
              have hscan : scanTo ')' (t ++ (C0 ++ ')' :: r0)) = some (t ++ C0, r0) := by
                rw [hzq]
                exact scanTo_of hn2
              have hsz : s = p ++ lit2 ++ (t ++ (C0 ++ ')' :: r0)) := by
                rw [hsQ, hx1]
                simp
              have heq : t ++ C0 = phq := hP p (t ++ (C0 ++ ')' :: r0)) hsz (t ++ C0) _ hscan
              have htl : t.getLast? = some '(' := last_of_app hQlast hx1 hte
              obtain ⟨t1, ht1⟩ := getLast?_concat_ex htl
              have hmp : '(' ∈ phq := by
                rw [← heq, ht1]
                simp
              exact absurd hmp (by decide)
        · rcases occ_split hy2 with ⟨t2, hz1, _hz2⟩ | ⟨t2, _hz1, hz2⟩ |
            ⟨a, b, hlit, hane, hbne, hxa, hyb⟩
          · exfalso
            have hcs : containsSub lit2 (phq ++ [')']) = true :=
              containsSub_iff.mpr ⟨t, t2, hz1⟩
            exact absurd hcs (by decide)
          · exact hT t2 r hz2 C u hsc
          · exfalso
            obtain ⟨hta, _htb, hk1, hk2⟩ := straddle_facts hlit hane hbne
            have hends : endsWith a (phq ++ [')']) = true := endsWith_iff.mpr ⟨t, hxa⟩
            have hdec : ∀ k, 1 ≤ k → k < 10 →
                endsWith (lit2.take k) (phq ++ [')']) = false := by decide
            have hk2b : a.length < 10 := by
              have : lit2.length = 10 := by decide
              omega
            rw [hta, hdec a.length hk1 hk2b] at hends
            exact absurd hends (by simp)
        · exfalso
          obtain ⟨hta, _htb, hk1, hk2⟩ := straddle_facts hlit hane hbne
          have hal : a.getLast? = some '(' := last_of_app hQlast hxa hane
          have hdec : ∀ k, 1 ≤ k → k < 10 → (lit2.take k).getLast? ≠ some '(' := by decide
          have hk2b : a.length < 10 := by
            have : lit2.length = 10 := by decide
            omega
          rw [hta] at hal
          exact absurd hal (hdec a.length hk1 hk2b)
  intro s
  exact main s.length s (le_refl _)

/-- C3: the three-pattern redaction pass of `process_file` is idempotent —
for every input text `t`, `redact (redact t) = redact t` — and the
placeholder strings introduced by a replacement (`<binary data removed>`
for pattern 1, `"<binary data removed>"` for patterns 2 and 3) contain no
further match of any of the three patterns. -/
theorem c3_redactor_idempotent :
    (∀ t, redact (redact t) = redact t) ∧
      find1 ph = none ∧ find2 ph = none ∧ find3 ph = none ∧
      find1 phq = none ∧ find2 phq = none ∧ find3 phq = none := by
  refine ⟨?_, by decide, by decide, by decide, by decide, by decide, by decide⟩
  intro t
  have h1 : P1 (pat1 t) := pat1_estab t
  have h2 : P1 (pat2 (pat1 t)) := pat2_pres_P1 _ h1
  have h3 : P1 (redact t) := pat3_pres_P1 _ h2
  have h4 : P2 (pat2 (pat1 t)) := pat2_estab (pat1 t)
  have h5 : P2 (redact t) := pat3_pres_P2 _ h4
  have h6 : P3 (redact t) := pat3_estab (pat2 (pat1 t))
  calc redact (redact t) = pat3 (pat2 (pat1 (redact t))) := rfl
    _ = pat3 (pat2 (redact t)) := by rw [pat1_fix h3]
    _ = pat3 (redact t) := by rw [pat2_fix h5]
    _ = redact t := pat3_fix h6

end RepoToText
